import Mathlib

/-!
Verification development for the scculs library (`libscculs.py`).

The Python source is embedded shallowly:
* byte strings (clade ids, split ids) become `List ℕ` (each entry one byte);
* `numpy.packbits` / `numpy.unpackbits` become `packbits` / `unpackbits`
  (most-significant bit first, padding the last byte with zero bits);
* Python dicts become association lists (`List (κ × α)`) with first-match
  lookup (`dlookup`), in-place-or-append update (`dset`) and `pop` (`derase`);
* Python floats become elements of a linear ordered field (`ℚ` or `ℝ`);
* fallible dict indexing (a possible `KeyError`) becomes `Option`.
-/

namespace Scculs

/-- One byte unpacked into its eight bits, most significant first
(`numpy.unpackbits` on a `uint8`). -/
def byteToBits (n : ℕ) : List Bool :=
  [n.testBit 7, n.testBit 6, n.testBit 5, n.testBit 4,
   n.testBit 3, n.testBit 2, n.testBit 1, n.testBit 0]

/-- Eight bits (most significant first) packed into one byte value. -/
def bitsToByte (l : List Bool) : ℕ :=
  l.foldl (fun acc b => 2 * acc + cond b 1 0) 0

/-- Pad a bit list with zero bits up to length 8 (`numpy.packbits` pads the
last partial byte with trailing zero bits). -/
def padTo8 (l : List Bool) : List Bool :=
  l ++ List.replicate (8 - l.length) false

/-- `numpy.packbits`: pack a bit vector into bytes, most significant bit
first, the final partial byte padded with zero bits. -/
def packbits : List Bool → List ℕ
  | [] => []
  | b0 :: b1 :: b2 :: b3 :: b4 :: b5 :: b6 :: b7 :: rest =>
    bitsToByte [b0, b1, b2, b3, b4, b5, b6, b7] :: packbits rest
  | l => [bitsToByte (padTo8 l)]

/-- `numpy.unpackbits`: unpack a byte string into its bit vector. -/
def unpackbits (bytes : List ℕ) : List Bool :=
  (bytes.map byteToBits).flatten

/-- Python's `s.rstrip("\x00")` on a byte string: remove all trailing zero
bytes. -/
def rstrip0 (bytes : List ℕ) : List ℕ :=
  (bytes.reverse.dropWhile (fun b => b == 0)).reverse

theorem byteToBits_bitsToByte :
    ∀ a b c d e f g h : Bool,
      byteToBits (bitsToByte [a, b, c, d, e, f, g, h]) = [a, b, c, d, e, f, g, h] := by
  decide

theorem byteToBits_zero : byteToBits 0 = List.replicate 8 false := by decide

theorem byteToBits_of_length_eight (l : List Bool) (h : l.length = 8) :
    byteToBits (bitsToByte l) = l := by
  match l, h with
  | [a, b, c, d, e, f, g, h], _ => exact byteToBits_bitsToByte a b c d e f g h

theorem length_padTo8 (l : List Bool) (h : l.length ≤ 8) : (padTo8 l).length = 8 := by
  simp only [padTo8, List.length_append, List.length_replicate]
  omega

theorem unpackbits_nil : unpackbits [] = [] := rfl

theorem unpackbits_cons (b : ℕ) (bs : List ℕ) :
    unpackbits (b :: bs) = byteToBits b ++ unpackbits bs := by
  simp [unpackbits]

theorem unpackbits_append (l₁ l₂ : List ℕ) :
    unpackbits (l₁ ++ l₂) = unpackbits l₁ ++ unpackbits l₂ := by
  simp [unpackbits]

theorem packbits_eight (b0 b1 b2 b3 b4 b5 b6 b7 : Bool) (rest : List Bool) :
    packbits (b0 :: b1 :: b2 :: b3 :: b4 :: b5 :: b6 :: b7 :: rest)
      = bitsToByte [b0, b1, b2, b3, b4, b5, b6, b7] :: packbits rest := rfl

theorem exists_eight_cons : ∀ (l : List Bool), 8 ≤ l.length →
    ∃ b0 b1 b2 b3 b4 b5 b6 b7 rest,
      l = b0 :: b1 :: b2 :: b3 :: b4 :: b5 :: b6 :: b7 :: rest
  | b0 :: b1 :: b2 :: b3 :: b4 :: b5 :: b6 :: b7 :: rest, _ =>
    ⟨b0, b1, b2, b3, b4, b5, b6, b7, rest, rfl⟩
  | [], h => by simp at h
  | [_], h => by simp at h
  | [_, _], h => by simp at h
  | [_, _, _], h => by simp at h
  | [_, _, _, _], h => by simp at h
  | [_, _, _, _, _], h => by simp at h
  | [_, _, _, _, _, _], h => by simp at h
  | [_, _, _, _, _, _, _], h => by simp at h

/-- Unpacking inverts packing, up to the zero bits padding the last byte. -/
theorem unpackbits_packbits (l : List Bool) :
    unpackbits (packbits l) = l ++ List.replicate ((8 - l.length % 8) % 8) false := by
  induction l using packbits.induct with
  | case1 => rfl
  | case2 b0 b1 b2 b3 b4 b5 b6 b7 rest ih =>
    rw [packbits_eight, unpackbits_cons, ih,
      byteToBits_of_length_eight [b0, b1, b2, b3, b4, b5, b6, b7] rfl]
    have hlen8 : (b0 :: b1 :: b2 :: b3 :: b4 :: b5 :: b6 :: b7 :: rest).length
        = rest.length + 8 := by
      simp only [List.length_cons]
    rw [hlen8]
    have hcnt : (8 - (rest.length + 8) % 8) % 8 = (8 - rest.length % 8) % 8 := by
      omega
    rw [hcnt]
    simp [List.cons_append]
  | case3 l h1 h2 =>
    have hpos : 0 < l.length := List.length_pos.mpr (fun h => h1 h)
    have hle : l.length ≤ 7 := by
      by_contra hgt
      push_neg at hgt
      obtain ⟨b0, b1, b2, b3, b4, b5, b6, b7, rest, rfl⟩ :=
        exists_eight_cons l (by omega)
      exact h2 b0 b1 b2 b3 b4 b5 b6 b7 rest rfl
    rw [packbits, unpackbits_cons,
      byteToBits_of_length_eight _ (length_padTo8 _ (by omega)),
      unpackbits_nil, List.append_nil, padTo8]
    · have hcnt : 8 - l.length = (8 - l.length % 8) % 8 := by omega
      rw [hcnt]
    · exact h1
    · exact h2

theorem length_packbits (l : List Bool) :
    (packbits l).length = (l.length + 7) / 8 := by
  induction l using packbits.induct with
  | case1 => rfl
  | case2 b0 b1 b2 b3 b4 b5 b6 b7 rest ih =>
    rw [packbits_eight]
    simp only [List.length_cons, ih]
    omega
  | case3 l h1 h2 =>
    have hpos : 0 < l.length := List.length_pos.mpr (fun h => h1 h)
    have hle : l.length ≤ 7 := by
      by_contra hgt
      push_neg at hgt
      obtain ⟨b0, b1, b2, b3, b4, b5, b6, b7, rest, rfl⟩ :=
        exists_eight_cons l (by omega)
      exact h2 b0 b1 b2 b3 b4 b5 b6 b7 rest rfl
    rw [packbits]
    · simp only [List.length_singleton]
      omega
    · exact h1
    · exact h2

/-! ## The clade/split codec

`calculate_node_hashes` (source lines 302-332) and `elucidate_cc_split`
(source lines 482-514), together with `clade_size` (334-339),
`calculate_root_hash` (475-480) and `clade_taxon_names` (549-560). -/

/-- Membership in `children = set.union(children_a, children_b)` of the
source's encoding loop. -/
def nodeHashChildB (children_a children_b : List String) : String → Bool :=
  fun t => decide (t ∈ children_a) || decide (t ∈ children_b)

/-- The clade members in taxon order: the taxa `t` of `taxon_order` with
`t in children` (the source visits exactly these at split positions `i`). -/
def nodeHashMembers (children_a children_b taxon_order : List String) : List String :=
  taxon_order.filter (nodeHashChildB children_a children_b)

/-- The source's `a_first` flag: whether the first clade member in taxon
order lies in `children_a` (unset, hence arbitrary, for an empty clade). -/
def nodeHashAFirst (children_a children_b taxon_order : List String) : Bool :=
  match nodeHashMembers children_a children_b taxon_order with
  | [] => false
  | t :: _ => decide (t ∈ children_a)

/-- The split bit the source stores for a clade member `t`:
`(t in children_b) ^ a_first`. -/
def nodeHashSplitBit (children_a children_b taxon_order : List String) : String → Bool :=
  fun t => Bool.xor (decide (t ∈ children_b)) (nodeHashAFirst children_a children_b taxon_order)

/-- `calculate_node_hashes`: the parent id packs one membership bit per
taxon of the fixed order; the split id packs one bit per clade member (in
taxon order), the remaining positions of the fixed-width `split_boolean`
array staying zero. -/
def calculate_node_hashes (children_a children_b taxon_order : List String) :
    List ℕ × List ℕ :=
  (packbits (taxon_order.map (nodeHashChildB children_a children_b)),
   packbits ((nodeHashMembers children_a children_b taxon_order).map
        (nodeHashSplitBit children_a children_b taxon_order) ++
      List.replicate (taxon_order.length -
        (nodeHashMembers children_a children_b taxon_order).length) false))

/-- The decoding loop of `elucidate_cc_split`: walk the parent bits, and at
every set parent bit consume the next split bit (`false` once the split
bits are exhausted, the source's `j >= n_split_bits` default-to-child-2
branch); a consumed `true` marks child 1, a consumed `false` child 2. -/
def elucidateBits : List Bool → List Bool → List Bool × List Bool
  | [], _ => ([], [])
  | p :: ps, sbits =>
    if p then
      ((sbits.headD false) :: (elucidateBits ps sbits.tail).1,
       (!(sbits.headD false)) :: (elucidateBits ps sbits.tail).2)
    else
      (false :: (elucidateBits ps sbits).1,
       false :: (elucidateBits ps sbits).2)

/-- `elucidate_cc_split`: unpack parent and split ids, distribute the
parent's set bits over the two children, pack each child and strip its
trailing zero bytes (the source's `.rstrip("\x00")`). -/
def elucidate_cc_split (parent_id split_id : List ℕ) : List ℕ × List ℕ :=
  (rstrip0 (packbits (elucidateBits (unpackbits parent_id) (unpackbits split_id)).1),
   rstrip0 (packbits (elucidateBits (unpackbits parent_id) (unpackbits split_id)).2))

/-- `clade_size`: the number of set bits of the unpacked clade hash. -/
def clade_size (clade_hash : List ℕ) : ℕ :=
  (unpackbits clade_hash).count true

/-- `calculate_root_hash`: all-ones over `n_taxa` bits, packed. -/
def calculate_root_hash (n_taxa : ℕ) : List ℕ :=
  packbits (List.replicate n_taxa true)

/-- The collection loop of `clade_taxon_names`: the taxon at every set bit
position, in order.  (The source indexes `taxon_order[i]`; a set bit at a
position beyond the taxon order never occurs for ids encoded over it.) -/
def namesFromBits : List Bool → List String → List String
  | [], _ => []
  | _ :: bs, [] => namesFromBits bs []
  | b :: bs, t :: ts => if b then t :: namesFromBits bs ts else namesFromBits bs ts

/-- `clade_taxon_names`: the taxa at the set bit positions of the clade
hash, in taxon order. -/
def clade_taxon_names (clade_hash : List ℕ) (taxon_order : List String) : List String :=
  namesFromBits (unpackbits clade_hash) taxon_order

theorem elucidateBits_map {α : Type} (memB f : α → Bool) (ts : List α) (rest : List Bool) :
    elucidateBits (ts.map memB) ((ts.filter memB).map f ++ rest) =
      (ts.map (fun t => memB t && f t), ts.map (fun t => memB t && !(f t))) := by
  induction ts generalizing rest with
  | nil => simp [elucidateBits]
  | cons t ts ih =>
    by_cases h : memB t
    · simp only [List.map_cons, List.filter_cons_of_pos h, elucidateBits, h, if_true,
        List.cons_append, List.headD_cons, List.tail_cons, ih]
      simp [h]
    · simp only [List.map_cons, List.filter_cons_of_neg h, elucidateBits,
        Bool.false_eq_true, if_neg, h, ih]
      simp [h]

theorem elucidateBits_replicate_false (m : ℕ) (s : List Bool) :
    elucidateBits (List.replicate m false) s =
      (List.replicate m false, List.replicate m false) := by
  induction m with
  | zero => simp [elucidateBits]
  | succ m ih => simp [List.replicate_succ, elucidateBits, ih]

theorem elucidateBits_append (ps qs s : List Bool) :
    elucidateBits (ps ++ qs) s =
      ((elucidateBits ps s).1 ++ (elucidateBits qs (s.drop (ps.count true))).1,
       (elucidateBits ps s).2 ++ (elucidateBits qs (s.drop (ps.count true))).2) := by
  induction ps generalizing s with
  | nil => simp [elucidateBits]
  | cons p ps ih =>
    cases p with
    | false =>
      simp only [List.cons_append, elucidateBits, Bool.false_eq_true, if_neg,
        not_false_eq_true, List.append_eq]
      rw [ih s]
      simp [List.count_cons]
    | true =>
      simp only [List.cons_append, elucidateBits, if_true, List.append_eq]
      rw [ih s.tail]
      have hdrop : s.tail.drop (ps.count true) = s.drop (ps.count true + 1) := by
        rw [← List.drop_one, List.drop_drop]
        congr 1
        omega
      simp [hdrop, List.count_cons]

theorem headD_eq_getD_zero (l : List Bool) (d : Bool) : l.headD d = l.getD 0 d := by
  cases l <;> rfl

theorem getD_tail (l : List Bool) (m : ℕ) (d : Bool) : l.tail.getD m d = l.getD (m + 1) d := by
  cases l <;> simp [List.getD]

theorem elucidateBits_agree (ps s₁ s₂ : List Bool)
    (h : ∀ m < ps.count true, s₁.getD m false = s₂.getD m false) :
    elucidateBits ps s₁ = elucidateBits ps s₂ := by
  induction ps generalizing s₁ s₂ with
  | nil => rfl
  | cons p ps ih =>
    cases p with
    | false =>
      simp only [elucidateBits, Bool.false_eq_true, if_neg, not_false_eq_true]
      rw [ih s₁ s₂ (fun m hm => h m (by simpa [List.count_cons] using hm))]
    | true =>
      have h0 : s₁.headD false = s₂.headD false := by
        rw [headD_eq_getD_zero, headD_eq_getD_zero]
        exact h 0 (by simp [List.count_cons])
      have htails : elucidateBits ps s₁.tail = elucidateBits ps s₂.tail := by
        refine ih _ _ (fun m hm => ?_)
        rw [getD_tail, getD_tail]
        refine h (m + 1) ?_
        have hc : (true :: ps).count true = ps.count true + 1 := by
          simp [List.count_cons]
        omega
      simp only [elucidateBits, if_true, h0, htails]

theorem getD_replicate_false (m i : ℕ) :
    (List.replicate m false).getD i false = false := by
  induction m generalizing i with
  | zero => simp [List.getD]
  | succ m ih =>
    cases i with
    | zero => simp [List.replicate_succ]
    | succ i =>
      rw [List.replicate_succ]
      simp only [List.getD, List.get?_cons_succ]
      exact ih i

theorem getD_append_replicate_false (l : List Bool) (m i : ℕ) :
    (l ++ List.replicate m false).getD i false = l.getD i false := by
  induction l generalizing i with
  | nil =>
    rw [List.nil_append]
    simp only [List.getD_nil]
    exact getD_replicate_false m i
  | cons x xs ih =>
    cases i with
    | zero => simp [List.getD]
    | succ i => simpa [List.getD] using ih i

theorem elucidateBits_getD (ps s : List Bool) (i : ℕ) :
    ((elucidateBits ps s).1.getD i false && (elucidateBits ps s).2.getD i false) = false ∧
    ((elucidateBits ps s).1.getD i false || (elucidateBits ps s).2.getD i false)
      = ps.getD i false := by
  induction ps generalizing s i with
  | nil => simp [elucidateBits, List.getD]
  | cons p ps ih =>
    cases p with
    | false =>
      cases i with
      | zero => simp [elucidateBits, List.getD]
      | succ i =>
        have := ih s i
        simpa [elucidateBits, List.getD] using this
    | true =>
      cases i with
      | zero =>
        simp only [elucidateBits, if_true, List.getD_cons_zero]
        constructor
        · exact Bool.and_not_self _
        · simp
      | succ i =>
        have := ih s.tail i
        simpa [elucidateBits, List.getD] using this

theorem elucidateBits_length (ps s : List Bool) :
    (elucidateBits ps s).1.length = ps.length ∧
    (elucidateBits ps s).2.length = ps.length := by
  induction ps generalizing s with
  | nil => simp [elucidateBits]
  | cons p ps ih =>
    cases p with
    | false => simp [elucidateBits, (ih s).1, (ih s).2]
    | true => simp [elucidateBits, (ih s.tail).1, (ih s.tail).2]

/-! ### Trailing-zero trimming -/

theorem rstrip0_spec (bytes : List ℕ) :
    ∃ z : List ℕ, bytes = rstrip0 bytes ++ z ∧ ∀ b ∈ z, b = 0 := by
  refine ⟨(bytes.reverse.takeWhile (fun b => b == 0)).reverse, ?_, ?_⟩
  · have h := List.takeWhile_append_dropWhile (p := fun b => b == 0) (l := bytes.reverse)
    have h2 := congrArg List.reverse h
    rw [List.reverse_append, List.reverse_reverse] at h2
    rw [rstrip0]
    exact h2.symm
  · intro b hb
    rw [List.mem_reverse] at hb
    have := List.mem_takeWhile_imp hb
    simpa using this

theorem rstrip0_getLast?_ne_zero (bytes : List ℕ) :
    (rstrip0 bytes).getLast? ≠ some 0 := by
  have key : ∀ (l : List ℕ) (a : ℕ),
      (l.dropWhile (fun b => b == 0)).head? = some a → a ≠ 0 := by
    intro l
    induction l with
    | nil => intro a h; simp [List.dropWhile] at h
    | cons x xs ih =>
      intro a h
      by_cases hx : x = 0
      · rw [List.dropWhile_cons_of_pos (by simp [hx])] at h
        exact ih a h
      · rw [List.dropWhile_cons_of_neg (by simp [hx])] at h
        simp only [List.head?_cons, Option.some.injEq] at h
        omega
  intro hcon
  rw [rstrip0, List.getLast?_reverse] at hcon
  exact key bytes.reverse 0 hcon rfl

theorem unpackbits_all_zero (z : List ℕ) (h : ∀ b ∈ z, b = 0) :
    unpackbits z = List.replicate (8 * z.length) false := by
  induction z with
  | nil => simp [unpackbits]
  | cons b bs ih =>
    rw [unpackbits_cons, ih (fun x hx => h x (List.mem_cons_of_mem b hx))]
    rw [h b (List.mem_cons_self b bs), byteToBits_zero]
    rw [← List.replicate_add]
    congr 1
    simp only [List.length_cons]
    ring

theorem unpackbits_rstrip0 (bytes : List ℕ) :
    unpackbits bytes = unpackbits (rstrip0 bytes) ++
      List.replicate (8 * (bytes.length - (rstrip0 bytes).length)) false := by
  obtain ⟨z, hz, hall⟩ := rstrip0_spec bytes
  conv_lhs => rw [hz]
  rw [unpackbits_append, unpackbits_all_zero z hall]
  have hlen : z.length = bytes.length - (rstrip0 bytes).length := by
    have h := congrArg List.length hz
    rw [List.length_append] at h
    omega
  rw [hlen]

/-- Reading a bit (with default `false`) from a packed-then-trimmed bit
vector gives back the original bit: trimming only removes trailing zero
bytes and packing only appends zero padding bits. -/
theorem getD_unpack_rstrip_pack (bits : List Bool) (i : ℕ) :
    (unpackbits (rstrip0 (packbits bits))).getD i false = bits.getD i false := by
  have h1 := unpackbits_packbits bits
  have h2 := unpackbits_rstrip0 (packbits bits)
  have : (unpackbits (rstrip0 (packbits bits))).getD i false
      = (unpackbits (packbits bits)).getD i false := by
    rw [h2, getD_append_replicate_false]
  rw [this, h1, getD_append_replicate_false]

/-! ### Collecting taxon names from bit positions -/

theorem namesFromBits_nil_taxa (bits : List Bool) : namesFromBits bits [] = [] := by
  induction bits with
  | nil => rfl
  | cons b bs ih => rw [namesFromBits, ih]

theorem namesFromBits_replicate_false (m : ℕ) (ts : List String) :
    namesFromBits (List.replicate m false) ts = [] := by
  induction m generalizing ts with
  | zero => rfl
  | succ m ih =>
    rw [List.replicate_succ]
    cases ts with
    | nil => rw [namesFromBits, ih]
    | cons t ts =>
      rw [namesFromBits]
      simp only [Bool.false_eq_true, if_neg, not_false_eq_true]
      exact ih ts

theorem namesFromBits_append_replicate (bits : List Bool) (m : ℕ) (ts : List String) :
    namesFromBits (bits ++ List.replicate m false) ts = namesFromBits bits ts := by
  induction bits generalizing ts with
  | nil =>
    rw [List.nil_append, namesFromBits]
    exact namesFromBits_replicate_false m ts
  | cons b bs ih =>
    cases ts with
    | nil =>
      rw [List.cons_append, namesFromBits, namesFromBits, ih]
    | cons t ts =>
      rw [List.cons_append, namesFromBits, namesFromBits, ih]

theorem namesFromBits_map (g : String → Bool) (ts : List String) :
    namesFromBits (ts.map g) ts = ts.filter g := by
  induction ts with
  | nil => rfl
  | cons t ts ih =>
    rw [List.map_cons, namesFromBits, List.filter_cons]
    by_cases h : g t
    · simp [h, ih]
    · simp [h, ih]

/-- The taxon names collected from a packed-then-trimmed bit vector are the
ones collected from the original bit vector. -/
theorem clade_taxon_names_rstrip_pack (bits : List Bool) (ts : List String) :
    clade_taxon_names (rstrip0 (packbits bits)) ts = namesFromBits bits ts := by
  rw [clade_taxon_names]
  have h1 := unpackbits_packbits bits
  have h2 := unpackbits_rstrip0 (packbits bits)
  calc namesFromBits (unpackbits (rstrip0 (packbits bits))) ts
      = namesFromBits (unpackbits (rstrip0 (packbits bits)) ++
          List.replicate (8 * ((packbits bits).length - (rstrip0 (packbits bits)).length))
            false) ts := (namesFromBits_append_replicate _ _ ts).symm
    _ = namesFromBits (unpackbits (packbits bits)) ts := by rw [← h2]
    _ = namesFromBits (bits ++ List.replicate ((8 - bits.length % 8) % 8) false) ts := by
        rw [h1]
    _ = namesFromBits bits ts := namesFromBits_append_replicate _ _ ts

theorem count_true_map {α : Type} (g : α → Bool) (l : List α) :
    (l.map g).count true = (l.filter g).length := by
  induction l with
  | nil => rfl
  | cons a l ih =>
    rw [List.map_cons, List.count_cons, List.filter_cons, ih]
    by_cases h : g a <;> simp [h]

theorem count_true_append_replicate_false (l : List Bool) (m : ℕ) :
    (l ++ List.replicate m false).count true = l.count true := by
  rw [List.count_append, List.count_replicate]
  simp

/-! ### Decoding an encoded (clade id, split id) pair -/

theorem length_split_boolean (ca cb tor : List String) :
    ((nodeHashMembers ca cb tor).map (nodeHashSplitBit ca cb tor) ++
      List.replicate (tor.length - (nodeHashMembers ca cb tor).length) false).length
      = tor.length := by
  have hk : (nodeHashMembers ca cb tor).length ≤ tor.length :=
    List.length_filter_le _ _
  simp only [List.length_append, List.length_map, List.length_replicate]
  omega

theorem elucidateBits_encoded (ca cb tor : List String) :
    elucidateBits (unpackbits (calculate_node_hashes ca cb tor).1)
        (unpackbits (calculate_node_hashes ca cb tor).2)
      = (tor.map (fun t => nodeHashChildB ca cb t && nodeHashSplitBit ca cb tor t)
            ++ List.replicate ((8 - tor.length % 8) % 8) false,
         tor.map (fun t => nodeHashChildB ca cb t && !(nodeHashSplitBit ca cb tor t))
            ++ List.replicate ((8 - tor.length % 8) % 8) false) := by
  simp only [calculate_node_hashes]
  rw [unpackbits_packbits, unpackbits_packbits, length_split_boolean]
  rw [List.append_assoc, ← List.replicate_add, List.length_map]
  rw [elucidateBits_append]
  rw [nodeHashMembers, elucidateBits_map (nodeHashChildB ca cb) (nodeHashSplitBit ca cb tor) tor]
  rw [elucidateBits_replicate_false]

theorem decoded_child_names (ca cb tor : List String) :
    clade_taxon_names (elucidate_cc_split (calculate_node_hashes ca cb tor).1
        (calculate_node_hashes ca cb tor).2).1 tor
      = tor.filter (fun t => nodeHashChildB ca cb t && nodeHashSplitBit ca cb tor t) ∧
    clade_taxon_names (elucidate_cc_split (calculate_node_hashes ca cb tor).1
        (calculate_node_hashes ca cb tor).2).2 tor
      = tor.filter (fun t => nodeHashChildB ca cb t && !(nodeHashSplitBit ca cb tor t)) := by
  have h := elucidateBits_encoded ca cb tor
  constructor
  · show clade_taxon_names (rstrip0 (packbits (elucidateBits
        (unpackbits (calculate_node_hashes ca cb tor).1)
        (unpackbits (calculate_node_hashes ca cb tor).2)).1)) tor = _
    rw [h, clade_taxon_names_rstrip_pack, namesFromBits_append_replicate]
    exact namesFromBits_map _ tor
  · show clade_taxon_names (rstrip0 (packbits (elucidateBits
        (unpackbits (calculate_node_hashes ca cb tor).1)
        (unpackbits (calculate_node_hashes ca cb tor).2)).2)) tor = _
    rw [h, clade_taxon_names_rstrip_pack, namesFromBits_append_replicate]
    exact namesFromBits_map _ tor

/-- Decoding is insensitive tor the trailing-zero trim of the split id:
bit positions beyond the stored split length decode as child 2. -/
theorem elucidate_cc_split_rstrip0 (parent_id split_id : List ℕ) :
    elucidate_cc_split parent_id (rstrip0 split_id) =
      elucidate_cc_split parent_id split_id := by
  have hag : elucidateBits (unpackbits parent_id) (unpackbits (rstrip0 split_id))
      = elucidateBits (unpackbits parent_id) (unpackbits split_id) := by
    refine elucidateBits_agree _ _ _ (fun m _ => ?_)
    conv_rhs => rw [unpackbits_rstrip0 split_id]
    rw [getD_append_replicate_false]
  rw [elucidate_cc_split, elucidate_cc_split, hag]

theorem mem_members_of_mem_a (ca cb tor : List String) (t : String)
    (hsa : ∀ u ∈ ca, u ∈ tor) (ht : t ∈ ca) :
    t ∈ nodeHashMembers ca cb tor := by
  rw [nodeHashMembers, List.mem_filter]
  exact ⟨hsa t ht, by simp [nodeHashChildB, ht]⟩

theorem mem_members_of_mem_b (ca cb tor : List String) (t : String)
    (hsb : ∀ u ∈ cb, u ∈ tor) (ht : t ∈ cb) :
    t ∈ nodeHashMembers ca cb tor := by
  rw [nodeHashMembers, List.mem_filter]
  exact ⟨hsb t ht, by simp [nodeHashChildB, ht]⟩

theorem mem_union_of_mem_members (ca cb tor : List String) (t : String)
    (ht : t ∈ nodeHashMembers ca cb tor) : t ∈ ca ∨ t ∈ cb := by
  rw [nodeHashMembers, List.mem_filter, nodeHashChildB] at ht
  have := ht.2
  simp only [Bool.or_eq_true, decide_eq_true_eq] at this
  exact this

/-- Swapping the two children changes neither the clade id nor the split id
(for disjoint children whose first set, at least, is non-empty and drawn
from the taxon order). -/
theorem calculate_node_hashes_comm (ca cb tor : List String)
    (hane : ca ≠ []) (hsa : ∀ t ∈ ca, t ∈ tor)
    (hdisj : ∀ t, ¬(t ∈ ca ∧ t ∈ cb)) :
    calculate_node_hashes cb ca tor = calculate_node_hashes ca cb tor := by
  have hcB : nodeHashChildB cb ca = nodeHashChildB ca cb := by
    funext t
    rw [nodeHashChildB, nodeHashChildB]
    exact Bool.or_comm _ _
  have hmem : nodeHashMembers cb ca tor = nodeHashMembers ca cb tor := by
    rw [nodeHashMembers, nodeHashMembers, hcB]
  obtain ⟨t0, hca0⟩ := List.exists_mem_of_ne_nil ca hane
  have ht0mem : t0 ∈ nodeHashMembers ca cb tor := mem_members_of_mem_a ca cb tor t0 hsa hca0
  cases hm : nodeHashMembers ca cb tor with
  | nil =>
    rw [hm] at ht0mem
    exact absurd ht0mem (List.not_mem_nil t0)
  | cons m0 rest =>
    have hm0mem : m0 ∈ nodeHashMembers ca cb tor := by
      rw [hm]; exact List.mem_cons_self m0 rest
    have hm0 : m0 ∈ ca ∨ m0 ∈ cb := mem_union_of_mem_members ca cb tor m0 hm0mem
    have ha' : nodeHashAFirst cb ca tor = !(nodeHashAFirst ca cb tor) := by
      rw [nodeHashAFirst, nodeHashAFirst, hmem, hm]
      rcases hm0 with h | h
      · have hnb : m0 ∉ cb := fun hc => hdisj m0 ⟨h, hc⟩
        simp [h, hnb]
      · have hna : m0 ∉ ca := fun hc => hdisj m0 ⟨hc, h⟩
        simp [h, hna]
    have hsplit : (nodeHashMembers ca cb tor).map (nodeHashSplitBit cb ca tor)
        = (nodeHashMembers ca cb tor).map (nodeHashSplitBit ca cb tor) := by
      refine List.map_congr_left (fun t ht => ?_)
      rw [nodeHashSplitBit, nodeHashSplitBit, ha']
      rcases mem_union_of_mem_members ca cb tor t ht with h | h
      · have hnb : t ∉ cb := fun hc => hdisj t ⟨h, hc⟩
        simp [h, hnb]
      · have hna : t ∉ ca := fun hc => hdisj t ⟨hc, h⟩
        simp [h, hna]
    rw [calculate_node_hashes, calculate_node_hashes, hcB, hmem, hsplit]

theorem cherry_split_bits (ca cb tor : List String)
    (hane : ca ≠ []) (hbne : cb ≠ [])
    (hsa : ∀ t ∈ ca, t ∈ tor) (hsb : ∀ t ∈ cb, t ∈ tor)
    (hdisj : ∀ t, ¬(t ∈ ca ∧ t ∈ cb))
    (t0 t1 : String) (hm : nodeHashMembers ca cb tor = [t0, t1]) :
    nodeHashSplitBit ca cb tor t0 = true ∧ nodeHashSplitBit ca cb tor t1 = false := by
  have ht0mem : t0 ∈ nodeHashMembers ca cb tor := by
    rw [hm]; exact List.mem_cons_self t0 [t1]
  have ht0 : t0 ∈ ca ∨ t0 ∈ cb := mem_union_of_mem_members ca cb tor t0 ht0mem
  have haf : nodeHashAFirst ca cb tor = decide (t0 ∈ ca) := by
    rw [nodeHashAFirst, hm]
  rcases ht0 with h0a | h0b
  · have h0nb : t0 ∉ cb := fun hc => hdisj t0 ⟨h0a, hc⟩
    obtain ⟨y, hy⟩ := List.exists_mem_of_ne_nil cb hbne
    have hymem : y ∈ nodeHashMembers ca cb tor := mem_members_of_mem_b ca cb tor y hsb hy
    rw [hm] at hymem
    have hy01 : y = t0 ∨ y = t1 := by simpa using hymem
    have ht1b : t1 ∈ cb := by
      rcases hy01 with rfl | rfl
      · exact absurd hy h0nb
      · exact hy
    constructor
    · simp [nodeHashSplitBit, haf, h0a, h0nb]
    · simp [nodeHashSplitBit, haf, h0a, ht1b]
  · have h0na : t0 ∉ ca := fun hc => hdisj t0 ⟨hc, h0b⟩
    obtain ⟨x, hx⟩ := List.exists_mem_of_ne_nil ca hane
    have hxmem : x ∈ nodeHashMembers ca cb tor := mem_members_of_mem_a ca cb tor x hsa hx
    rw [hm] at hxmem
    have hx01 : x = t0 ∨ x = t1 := by simpa using hxmem
    have ht1a : t1 ∈ ca := by
      rcases hx01 with rfl | rfl
      · exact absurd hx h0na
      · exact hx
    have ht1nb : t1 ∉ cb := fun hc => hdisj t1 ⟨ht1a, hc⟩
    constructor
    · simp [nodeHashSplitBit, haf, h0na, h0b]
    · simp [nodeHashSplitBit, haf, h0na, ht1nb]

/-- For a clade of exactly two taxa, decoding with the cherry sentinel
split id `"\x80"` gives the same children as decoding with the encoded
split id. -/
theorem elucidate_cherry (ca cb tor : List String)
    (hane : ca ≠ []) (hbne : cb ≠ [])
    (hsa : ∀ t ∈ ca, t ∈ tor) (hsb : ∀ t ∈ cb, t ∈ tor)
    (hdisj : ∀ t, ¬(t ∈ ca ∧ t ∈ cb))
    (h2 : (nodeHashMembers ca cb tor).length = 2) :
    elucidate_cc_split (calculate_node_hashes ca cb tor).1 [128]
      = elucidate_cc_split (calculate_node_hashes ca cb tor).1
          (calculate_node_hashes ca cb tor).2 := by
  obtain ⟨t0, t1, hm⟩ := List.length_eq_two.mp h2
  obtain ⟨fb0, fb1⟩ := cherry_split_bits ca cb tor hane hbne hsa hsb hdisj t0 t1 hm
  have hfilter : tor.filter (nodeHashChildB ca cb) = nodeHashMembers ca cb tor := rfl
  have hcount : (unpackbits (calculate_node_hashes ca cb tor).1).count true = 2 := by
    show (unpackbits (packbits (tor.map (nodeHashChildB ca cb)))).count true = 2
    rw [unpackbits_packbits, count_true_append_replicate_false, count_true_map,
      hfilter, hm]
    rfl
  have h128 : unpackbits [128]
      = [true, false, false, false, false, false, false, false] := by decide
  have hsid : ∀ m, m < 2 → (unpackbits [128]).getD m false
      = (unpackbits (calculate_node_hashes ca cb tor).2).getD m false := by
    intro m hm2
    have hsid2 : (unpackbits (calculate_node_hashes ca cb tor).2).getD m false
        = ((nodeHashMembers ca cb tor).map (nodeHashSplitBit ca cb tor) ++
            List.replicate (tor.length - (nodeHashMembers ca cb tor).length)
              false).getD m false := by
      show (unpackbits (packbits _)).getD m false = _
      rw [unpackbits_packbits, getD_append_replicate_false]
    rw [hsid2, hm]
    interval_cases m
    · simp [h128, fb0, List.getD]
    · simp [h128, fb1, List.getD]
  have hag := elucidateBits_agree (unpackbits (calculate_node_hashes ca cb tor).1)
      (unpackbits [128]) (unpackbits (calculate_node_hashes ca cb tor).2)
      (fun m hmlt => hsid m (by rw [hcount] at hmlt; exact hmlt))
  rw [elucidate_cc_split, elucidate_cc_split, hag]

/-- C1: the clade/split encoding is canonical and invertible.  For disjoint
non-empty leaf-name sets drawn from the fixed taxon order,
`calculate_node_hashes` returns the same (clade id, split id) pair whichever
set is passed first; decoding the encoded pair with `elucidate_cc_split`
recovers exactly the original bipartition (as the two children's taxon-name
lists in taxon order, in one of the two orders); decoding is unchanged when
the stored split id is trimmed of its trailing zero bytes (bit positions
beyond the stored length decode as child B); and a clade of exactly two
taxa decodes identically with the cherry sentinel split id `"\x80"`. -/
theorem claim_C1_codec_canonical_invertible (ca cb tor : List String)
    (hane : ca ≠ []) (hbne : cb ≠ [])
    (hsa : ∀ t ∈ ca, t ∈ tor) (hsb : ∀ t ∈ cb, t ∈ tor)
    (hdisj : ∀ t, ¬(t ∈ ca ∧ t ∈ cb)) :
    calculate_node_hashes cb ca tor = calculate_node_hashes ca cb tor ∧
    ((clade_taxon_names (elucidate_cc_split (calculate_node_hashes ca cb tor).1
          (calculate_node_hashes ca cb tor).2).1 tor
        = tor.filter (fun t => decide (t ∈ ca)) ∧
      clade_taxon_names (elucidate_cc_split (calculate_node_hashes ca cb tor).1
          (calculate_node_hashes ca cb tor).2).2 tor
        = tor.filter (fun t => decide (t ∈ cb))) ∨
     (clade_taxon_names (elucidate_cc_split (calculate_node_hashes ca cb tor).1
          (calculate_node_hashes ca cb tor).2).1 tor
        = tor.filter (fun t => decide (t ∈ cb)) ∧
      clade_taxon_names (elucidate_cc_split (calculate_node_hashes ca cb tor).1
          (calculate_node_hashes ca cb tor).2).2 tor
        = tor.filter (fun t => decide (t ∈ ca)))) ∧
    elucidate_cc_split (calculate_node_hashes ca cb tor).1
        (rstrip0 (calculate_node_hashes ca cb tor).2)
      = elucidate_cc_split (calculate_node_hashes ca cb tor).1
          (calculate_node_hashes ca cb tor).2 ∧
    ((nodeHashMembers ca cb tor).length = 2 →
      elucidate_cc_split (calculate_node_hashes ca cb tor).1 [128]
        = elucidate_cc_split (calculate_node_hashes ca cb tor).1
            (calculate_node_hashes ca cb tor).2) := by
  refine ⟨calculate_node_hashes_comm ca cb tor hane hsa hdisj, ?_,
    elucidate_cc_split_rstrip0 _ _,
    fun h2 => elucidate_cherry ca cb tor hane hbne hsa hsb hdisj h2⟩
  obtain ⟨hn1, hn2⟩ := decoded_child_names ca cb tor
  cases haf : nodeHashAFirst ca cb tor with
  | true =>
    left
    constructor
    · rw [hn1]
      refine List.filter_congr (fun t ht => ?_)
      simp only [nodeHashChildB, nodeHashSplitBit, haf]
      by_cases hta : t ∈ ca
      · have htb : t ∉ cb := fun hc => hdisj t ⟨hta, hc⟩
        simp [hta, htb]
      · by_cases htb : t ∈ cb
        · simp [hta, htb]
        · simp [hta, htb]
    · rw [hn2]
      refine List.filter_congr (fun t ht => ?_)
      simp only [nodeHashChildB, nodeHashSplitBit, haf]
      by_cases hta : t ∈ ca
      · have htb : t ∉ cb := fun hc => hdisj t ⟨hta, hc⟩
        simp [hta, htb]
      · by_cases htb : t ∈ cb
        · simp [hta, htb]
        · simp [hta, htb]
  | false =>
    right
    constructor
    · rw [hn1]
      refine List.filter_congr (fun t ht => ?_)
      simp only [nodeHashChildB, nodeHashSplitBit, haf]
      by_cases hta : t ∈ ca
      · have htb : t ∉ cb := fun hc => hdisj t ⟨hta, hc⟩
        simp [hta, htb]
      · by_cases htb : t ∈ cb
        · simp [hta, htb]
        · simp [hta, htb]
    · rw [hn2]
      refine List.filter_congr (fun t ht => ?_)
      simp only [nodeHashChildB, nodeHashSplitBit, haf]
      by_cases hta : t ∈ ca
      · have htb : t ∉ cb := fun hc => hdisj t ⟨hta, hc⟩
        simp [hta, htb]
      · by_cases htb : t ∈ cb
        · simp [hta, htb]
        · simp [hta, htb]

theorem claim_C1_codec_canonical_invertible_witness :
    ((["a"] : List String) ≠ [] ∧ (["b"] : List String) ≠ []) ∧
    (calculate_node_hashes ["b"] ["a"] ["a", "b"]
        = calculate_node_hashes ["a"] ["b"] ["a", "b"] ∧
      ((clade_taxon_names (elucidate_cc_split
            (calculate_node_hashes ["a"] ["b"] ["a", "b"]).1
            (calculate_node_hashes ["a"] ["b"] ["a", "b"]).2).1 ["a", "b"]
          = ["a", "b"].filter (fun t => decide (t ∈ (["a"] : List String))) ∧
        clade_taxon_names (elucidate_cc_split
            (calculate_node_hashes ["a"] ["b"] ["a", "b"]).1
            (calculate_node_hashes ["a"] ["b"] ["a", "b"]).2).2 ["a", "b"]
          = ["a", "b"].filter (fun t => decide (t ∈ (["b"] : List String)))) ∨
       (clade_taxon_names (elucidate_cc_split
            (calculate_node_hashes ["a"] ["b"] ["a", "b"]).1
            (calculate_node_hashes ["a"] ["b"] ["a", "b"]).2).1 ["a", "b"]
          = ["a", "b"].filter (fun t => decide (t ∈ (["b"] : List String))) ∧
        clade_taxon_names (elucidate_cc_split
            (calculate_node_hashes ["a"] ["b"] ["a", "b"]).1
            (calculate_node_hashes ["a"] ["b"] ["a", "b"]).2).2 ["a", "b"]
          = ["a", "b"].filter (fun t => decide (t ∈ (["a"] : List String))))) ∧
      elucidate_cc_split (calculate_node_hashes ["a"] ["b"] ["a", "b"]).1
          (rstrip0 (calculate_node_hashes ["a"] ["b"] ["a", "b"]).2)
        = elucidate_cc_split (calculate_node_hashes ["a"] ["b"] ["a", "b"]).1
            (calculate_node_hashes ["a"] ["b"] ["a", "b"]).2 ∧
      ((nodeHashMembers ["a"] ["b"] ["a", "b"]).length = 2 →
        elucidate_cc_split (calculate_node_hashes ["a"] ["b"] ["a", "b"]).1 [128]
          = elucidate_cc_split (calculate_node_hashes ["a"] ["b"] ["a", "b"]).1
              (calculate_node_hashes ["a"] ["b"] ["a", "b"]).2)) :=
  ⟨⟨by decide, by decide⟩,
    claim_C1_codec_canonical_invertible ["a"] ["b"] ["a", "b"]
      (by decide) (by decide) (by decide) (by decide)
      (fun t ht => by
        rcases ht with ⟨h1, h2⟩
        simp only [List.mem_singleton] at h1 h2
        subst h1
        exact absurd h2 (by decide))⟩

/-- C10: for every parent clade id and split id, the two children returned
by `elucidate_cc_split` carry disjoint bit sets whose union is exactly the
parent's bit set (reading bits beyond an id's stored length as zero), and
each returned child id has its trailing zero bytes removed. -/
theorem claim_C10_decoded_children_partition (parent_id split_id : List ℕ)
    (hpos : 1 ≤ clade_size parent_id) :
    (∀ i : ℕ,
      ¬((unpackbits (elucidate_cc_split parent_id split_id).1).getD i false = true ∧
        (unpackbits (elucidate_cc_split parent_id split_id).2).getD i false = true)) ∧
    (∀ i : ℕ,
      ((unpackbits (elucidate_cc_split parent_id split_id).1).getD i false = true ∨
       (unpackbits (elucidate_cc_split parent_id split_id).2).getD i false = true) ↔
      (unpackbits parent_id).getD i false = true) ∧
    (elucidate_cc_split parent_id split_id).1.getLast? ≠ some 0 ∧
    (elucidate_cc_split parent_id split_id).2.getLast? ≠ some 0 := by
  have hb1 : ∀ i, (unpackbits (elucidate_cc_split parent_id split_id).1).getD i false
      = (elucidateBits (unpackbits parent_id) (unpackbits split_id)).1.getD i false :=
    fun i => getD_unpack_rstrip_pack _ i
  have hb2 : ∀ i, (unpackbits (elucidate_cc_split parent_id split_id).2).getD i false
      = (elucidateBits (unpackbits parent_id) (unpackbits split_id)).2.getD i false :=
    fun i => getD_unpack_rstrip_pack _ i
  refine ⟨fun i => ?_, fun i => ?_, rstrip0_getLast?_ne_zero _, rstrip0_getLast?_ne_zero _⟩
  · rintro ⟨h1, h2⟩
    have hand := (elucidateBits_getD (unpackbits parent_id) (unpackbits split_id) i).1
    rw [hb1 i] at h1
    rw [hb2 i] at h2
    rw [h1, h2] at hand
    exact absurd hand (by decide)
  · have hor := (elucidateBits_getD (unpackbits parent_id) (unpackbits split_id) i).2
    constructor
    · rintro (h | h)
      · rw [hb1 i] at h
        rw [← hor, h]
        simp
      · rw [hb2 i] at h
        rw [← hor, h]
        simp
    · intro h
      rw [h] at hor
      rcases Bool.or_eq_true_iff.mp hor with h' | h'
      · left
        rw [hb1 i]
        exact h'
      · right
        rw [hb2 i]
        exact h'

theorem claim_C10_decoded_children_partition_witness :
    1 ≤ clade_size [160] ∧
    ((∀ i : ℕ,
      ¬((unpackbits (elucidate_cc_split [160] [128]).1).getD i false = true ∧
        (unpackbits (elucidate_cc_split [160] [128]).2).getD i false = true)) ∧
    (∀ i : ℕ,
      ((unpackbits (elucidate_cc_split [160] [128]).1).getD i false = true ∨
       (unpackbits (elucidate_cc_split [160] [128]).2).getD i false = true) ↔
      (unpackbits [160]).getD i false = true) ∧
    (elucidate_cc_split [160] [128]).1.getLast? ≠ some 0 ∧
    (elucidate_cc_split [160] [128]).2.getLast? ≠ some 0) :=
  ⟨by decide, claim_C10_decoded_children_partition [160] [128] (by decide)⟩

/-! ## Python dictionaries as association lists -/

/-- First-match lookup in an association list (`d[k]` when present). -/
def dlookup {κ β : Type} [DecidableEq κ] (k : κ) : List (κ × β) → Option β
  | [] => none
  | p :: ps => if p.1 = k then some p.2 else dlookup k ps

/-- `d[k] = v`: replace the first entry for `k` in place, appending a new
entry when `k` is absent (Python dict assignment). -/
def dset {κ β : Type} [DecidableEq κ] : List (κ × β) → κ → β → List (κ × β)
  | [], k, v => [(k, v)]
  | p :: ps, k, v => if p.1 = k then (k, v) :: ps else p :: dset ps k v

/-- `d.pop(k)`: remove the entry for `k` (association lists built by `dset`
hold at most one entry per key). -/
def derase {κ β : Type} [DecidableEq κ] (d : List (κ × β)) (k : κ) : List (κ × β) :=
  d.filter (fun p => !(decide (p.1 = k)))

theorem dlookup_dset_self {κ β : Type} [DecidableEq κ] (d : List (κ × β)) (k : κ) (v : β) :
    dlookup k (dset d k v) = some v := by
  induction d with
  | nil => simp [dset, dlookup]
  | cons p ps ih =>
    by_cases h : p.1 = k
    · simp [dset, dlookup, h]
    · simp [dset, dlookup, h, ih]

theorem dlookup_dset_ne {κ β : Type} [DecidableEq κ] (d : List (κ × β)) (k k' : κ) (v : β)
    (hne : k' ≠ k) : dlookup k' (dset d k v) = dlookup k' d := by
  induction d with
  | nil =>
    rw [dset, dlookup, dlookup]
    rw [if_neg (fun h : k = k' => hne h.symm)]
    rfl
  | cons p ps ih =>
    rw [dset]
    by_cases h : p.1 = k
    · rw [if_pos h, dlookup, dlookup]
      rw [if_neg (fun hh : k = k' => hne hh.symm)]
      rw [if_neg (fun hh : p.1 = k' => hne ((h.symm.trans hh).symm))]
    · rw [if_neg h, dlookup, dlookup, ih]

/-! ## The generic discrete probability table

`DiscreteProbabilities` (source lines 111-181): sorted feature hashes, the
matching payloads, a probability dictionary and its array form.  Source
floats are modelled as elements of a linear ordered field. -/

structure DiscreteProbabilities (κ δ α : Type) where
  hashes_array : List κ
  data_array : List δ
  probabilities : List (κ × α)
  probabilities_array : List α

namespace DiscreteProbabilities

/-- `convert_probabilities`: rebuild the probability array from the
dictionary, in hash order. -/
def convert_probabilities {κ δ α : Type} [DecidableEq κ] [Zero α]
    (t : DiscreteProbabilities κ δ α) : DiscreteProbabilities κ δ α :=
  { t with probabilities_array :=
      t.hashes_array.map (fun k => (dlookup k t.probabilities).getD 0) }

end DiscreteProbabilities

/-- `numpy.argsort` ascending followed by `[::-1]`: the indices of the
probability array, sorted by descending probability. -/
def descendingOrder {α : Type} [LinearOrderedField α] (pd : List α) : List ℕ :=
  (List.insertionSort (fun i j => pd.getD i 0 ≤ pd.getD j 0) (List.range pd.length)).reverse

/-- The index-collecting loop of `cull_probabilities`: visit the indices in
descending probability order while maintaining the running feature count
and running probability, both updated after the check; collect an index
exactly when, at its visit, either running value has already reached its
threshold. -/
def cullLoop {α : Type} [LinearOrderedField α]
    (pd : List α) (max_features : ℕ) (max_probability : α) :
    List ℕ → ℕ → α → List ℕ
  | [], _, _ => []
  | i :: rest, feat, post =>
    if max_features ≤ feat ∨ max_probability ≤ post then
      i :: cullLoop pd max_features max_probability rest (feat + 1) (post + pd.getD i 0)
    else
      cullLoop pd max_features max_probability rest (feat + 1) (post + pd.getD i 0)

/-- `numpy.delete`: drop the entries of `l` at the positions listed in
`idxs`. -/
def deleteIndices {β : Type} (l : List β) (idxs : List ℕ) : List β :=
  (l.enum.filter (fun p => !(decide (p.1 ∈ idxs)))).map Prod.snd

/-- `cull_probabilities` (source lines 160-181). -/
def DiscreteProbabilities.cull_probabilities {κ δ α : Type} [DecidableEq κ]
    [LinearOrderedField α] (t : DiscreteProbabilities κ δ α)
    (max_features : ℕ) (max_probability : α) : DiscreteProbabilities κ δ α :=
  let cull_indices := cullLoop t.probabilities_array max_features max_probability
    (descendingOrder t.probabilities_array) 0 0
  { hashes_array := deleteIndices t.hashes_array cull_indices
    data_array := deleteIndices t.data_array cull_indices
    probabilities := cull_indices.foldl
      (fun d i =>
        match t.hashes_array.get? i with
        | some k => derase d k
        | none => d) t.probabilities
    probabilities_array := deleteIndices t.probabilities_array cull_indices }

/-- The running probability accumulated just before visiting position `m`
of the visit order `l`. -/
def visitMass {α : Type} [LinearOrderedField α] (pd : List α) (l : List ℕ) (m : ℕ) : α :=
  ((l.take m).map (fun i => pd.getD i 0)).sum

/-- The cull loop collects exactly the indices at visit positions where a
threshold had been reached before the visit. -/
theorem cullLoop_eq {α : Type} [LinearOrderedField α]
    (pd : List α) (mf : ℕ) (mp : α) :
    ∀ (l : List ℕ) (feat : ℕ) (post : α),
      cullLoop pd mf mp l feat post =
        ((List.range l.length).filter (fun m =>
            decide (mf ≤ feat + m ∨ mp ≤ post + visitMass pd l m))).map
          (fun m => l.getD m 0) := by
  intro l
  induction l with
  | nil => intro feat post; simp [cullLoop]
  | cons i rest ih =>
    intro feat post
    rw [cullLoop, List.length_cons, List.range_succ_eq_map, List.filter_cons]
    have hc0 : decide (mf ≤ feat + 0 ∨ mp ≤ post + visitMass pd (i :: rest) 0)
        = decide (mf ≤ feat ∨ mp ≤ post) := by
      simp [visitMass]
    rw [hc0]
    have hmap : List.filter (fun m =>
          decide (mf ≤ feat + m ∨ mp ≤ post + visitMass pd (i :: rest) m))
          (List.map Nat.succ (List.range rest.length))
        = List.map Nat.succ (List.filter (fun m =>
            decide (mf ≤ (feat + 1) + m ∨
              mp ≤ (post + pd.getD i 0) + visitMass pd rest m)) (List.range rest.length)) := by
      rw [List.filter_map]
      congr 1
      refine List.filter_congr (fun m _ => ?_)
      have h1 : feat + Nat.succ m = (feat + 1) + m := by omega
      have h2 : visitMass pd (i :: rest) (Nat.succ m)
          = pd.getD i 0 + visitMass pd rest m := by
        simp [visitMass, List.take_succ_cons]
      simp only [Function.comp]
      rw [h1, h2]
      congr 2
      rw [← add_assoc]
    rw [hmap]
    by_cases hcond : mf ≤ feat ∨ mp ≤ post
    · rw [if_pos hcond, ih (feat + 1) (post + pd.getD i 0),
        if_pos (decide_eq_true hcond)]
      rw [List.map_cons, List.getD_cons_zero, List.map_map]
      rfl
    · rw [if_neg hcond, ih (feat + 1) (post + pd.getD i 0),
        if_neg (fun h => hcond (of_decide_eq_true h))]
      rw [List.map_map]
      rfl

theorem descendingOrder_perm {α : Type} [LinearOrderedField α] (pd : List α) :
    (descendingOrder pd).Perm (List.range pd.length) :=
  (List.reverse_perm _).trans (List.perm_insertionSort _ _)

theorem descendingOrder_length {α : Type} [LinearOrderedField α] (pd : List α) :
    (descendingOrder pd).length = pd.length := by
  have h := (descendingOrder_perm pd).length_eq
  simpa using h

theorem descendingOrder_nodup {α : Type} [LinearOrderedField α] (pd : List α) :
    (descendingOrder pd).Nodup :=
  (descendingOrder_perm pd).nodup_iff.mpr (List.nodup_range pd.length)

theorem descendingOrder_sorted {α : Type} [LinearOrderedField α] (pd : List α) :
    List.Sorted (fun i j => pd.getD j 0 ≤ pd.getD i 0) (descendingOrder pd) := by
  haveI hto : IsTotal ℕ (fun i j => pd.getD i 0 ≤ pd.getD j 0) :=
    ⟨fun i j => le_total _ _⟩
  haveI htr : IsTrans ℕ (fun i j => pd.getD i 0 ≤ pd.getD j 0) :=
    ⟨fun a b c hab hbc => le_trans hab hbc⟩
  rw [descendingOrder, List.Sorted, List.pairwise_reverse]
  exact List.sorted_insertionSort _ _

/-- C3: `cull_probabilities` implements the keep-leaders/drop-tail policy.
The indices are visited in descending probability order (a permutation of
all indices); an index is culled exactly when, at its visit, the number of
indices already visited has reached `max_features` or the probability mass
already visited has reached `max_probability`; every index visited while
both running values were still below threshold is kept; and the culled
indices are removed from the hash, payload and probability arrays alike. -/
theorem claim_C3_cull_keep_leaders_drop_tail {κ δ α : Type} [DecidableEq κ]
    [LinearOrderedField α] (t : DiscreteProbabilities κ δ α)
    (max_features : ℕ) (max_probability : α) :
    (descendingOrder t.probabilities_array).Perm
        (List.range t.probabilities_array.length) ∧
    List.Sorted (fun i j => t.probabilities_array.getD j 0 ≤ t.probabilities_array.getD i 0)
      (descendingOrder t.probabilities_array) ∧
    cullLoop t.probabilities_array max_features max_probability
        (descendingOrder t.probabilities_array) 0 0
      = ((List.range (descendingOrder t.probabilities_array).length).filter (fun m =>
          decide (max_features ≤ m ∨ max_probability ≤
            visitMass t.probabilities_array (descendingOrder t.probabilities_array) m))).map
        (fun m => (descendingOrder t.probabilities_array).getD m 0) ∧
    (t.cull_probabilities max_features max_probability).hashes_array
      = deleteIndices t.hashes_array
          (cullLoop t.probabilities_array max_features max_probability
            (descendingOrder t.probabilities_array) 0 0) ∧
    (t.cull_probabilities max_features max_probability).data_array
      = deleteIndices t.data_array
          (cullLoop t.probabilities_array max_features max_probability
            (descendingOrder t.probabilities_array) 0 0) ∧
    (t.cull_probabilities max_features max_probability).probabilities_array
      = deleteIndices t.probabilities_array
          (cullLoop t.probabilities_array max_features max_probability
            (descendingOrder t.probabilities_array) 0 0) := by
  refine ⟨descendingOrder_perm _, descendingOrder_sorted _, ?_, rfl, rfl, rfl⟩
  rw [cullLoop_eq]
  simp only [zero_add]

theorem getD_nonneg {α : Type} [LinearOrderedField α] (pd : List α)
    (h0 : ∀ p ∈ pd, 0 ≤ p) (i : ℕ) : 0 ≤ pd.getD i 0 := by
  by_cases h : i < pd.length
  · rw [List.getD_eq_getElem pd 0 h]
    exact h0 _ (List.getElem_mem h)
  · rw [List.getD_eq_default pd 0 (by omega)]

theorem visitMass_mono {α : Type} [LinearOrderedField α] (pd : List α)
    (h0 : ∀ p ∈ pd, 0 ≤ p) (l : List ℕ) (m₁ m₂ : ℕ) (h : m₁ ≤ m₂) :
    visitMass pd l m₁ ≤ visitMass pd l m₂ := by
  obtain ⟨k, rfl⟩ := Nat.exists_eq_add_of_le h
  rw [visitMass, visitMass, List.take_add, List.map_append, List.sum_append]
  have hk : 0 ≤ (((l.drop m₁).take k).map (fun i => pd.getD i 0)).sum := by
    refine List.sum_nonneg (fun x hx => ?_)
    obtain ⟨i, _, rfl⟩ := List.mem_map.mp hx
    exact getD_nonneg pd h0 i
  linarith

theorem length_deleteIndices {β : Type} (l : List β) (idxs : List ℕ) :
    (deleteIndices l idxs).length
      = ((List.range l.length).filter (fun m => !(decide (m ∈ idxs)))).length := by
  rw [deleteIndices, List.length_map]
  suffices h : ∀ (k : ℕ) (l' : List β),
      ((l'.enumFrom k).filter (fun p => !(decide (p.1 ∈ idxs)))).length
        = ((List.range' k l'.length).filter (fun m => !(decide (m ∈ idxs)))).length by
    rw [List.enum, h 0 l, List.range_eq_range']
  intro k l'
  induction l' generalizing k with
  | nil => rfl
  | cons x xs ih =>
    rw [List.enumFrom, List.length_cons, List.range', List.filter_cons, List.filter_cons]
    by_cases hk : k ∈ idxs
    · simp only [decide_eq_true hk, Bool.not_true, Bool.false_eq_true, if_neg,
        not_false_eq_true]
      exact ih (k + 1)
    · simp only [decide_eq_false hk, Bool.not_false, if_true, List.length_cons]
      rw [ih (k + 1)]

theorem countP_not_add {γ : Type} (p : γ → Bool) (l : List γ) :
    l.countP (fun a => !(p a)) + l.countP p = l.length := by
  induction l with
  | nil => rfl
  | cons x xs ih =>
    rw [List.countP_cons, List.countP_cons, List.length_cons]
    cases hpx : p x <;> simp [hpx] <;> omega

theorem countP_mem_eq_length (ci : List ℕ) (n : ℕ) (hnd : ci.Nodup)
    (hsub : ∀ x ∈ ci, x < n) :
    (List.range n).countP (fun m => decide (m ∈ ci)) = ci.length := by
  rw [List.countP_eq_length_filter]
  have hnd2 : ((List.range n).filter (fun m => decide (m ∈ ci))).Nodup :=
    (List.nodup_range n).filter _
  rw [← List.toFinset_card_of_nodup hnd2, ← List.toFinset_card_of_nodup hnd]
  congr 1
  ext x
  simp only [List.mem_toFinset, List.mem_filter, List.mem_range, decide_eq_true_eq]
  constructor
  · rintro ⟨_, h⟩
    exact h
  · intro h
    exact ⟨hsub x h, h⟩

theorem countP_le_range (mf n : ℕ) :
    (List.range n).countP (fun m => decide (mf ≤ m)) = n - mf := by
  induction n with
  | zero => simp
  | succ n ih =>
    rw [List.range_succ, List.countP_append, ih]
    by_cases h : mf ≤ n
    · have : (List.countP (fun m => decide (mf ≤ m)) [n]) = 1 := by
        simp [List.countP_cons, h]
      rw [this]
      omega
    · have : (List.countP (fun m => decide (mf ≤ m)) [n]) = 0 := by
        simp [List.countP_cons, h]
      rw [this]
      omega

theorem cullIndices_mem {α : Type} [LinearOrderedField α] (pd : List α) (mf : ℕ) (mp : α) :
    ∀ i ∈ cullLoop pd mf mp (descendingOrder pd) 0 0,
      ∃ m, m < (descendingOrder pd).length ∧ (descendingOrder pd).getD m 0 = i ∧
        (mf ≤ m ∨ mp ≤ visitMass pd (descendingOrder pd) m) := by
  intro i hi
  rw [cullLoop_eq] at hi
  simp only [zero_add] at hi
  obtain ⟨m, hmem, heq⟩ := List.mem_map.mp hi
  obtain ⟨hrange, hcond⟩ := List.mem_filter.mp hmem
  exact ⟨m, List.mem_range.mp hrange, heq, of_decide_eq_true hcond⟩

theorem cullIndices_of_cond {α : Type} [LinearOrderedField α] (pd : List α)
    (mf : ℕ) (mp : α) (m : ℕ) (hm : m < (descendingOrder pd).length)
    (hcond : mf ≤ m ∨ mp ≤ visitMass pd (descendingOrder pd) m) :
    (descendingOrder pd).getD m 0 ∈ cullLoop pd mf mp (descendingOrder pd) 0 0 := by
  rw [cullLoop_eq]
  simp only [zero_add]
  exact List.mem_map.mpr
    ⟨m, List.mem_filter.mpr ⟨List.mem_range.mpr hm, decide_eq_true hcond⟩, rfl⟩

theorem cullIndices_nodup {α : Type} [LinearOrderedField α] (pd : List α)
    (mf : ℕ) (mp : α) :
    (cullLoop pd mf mp (descendingOrder pd) 0 0).Nodup := by
  rw [cullLoop_eq]
  simp only [zero_add]
  refine List.Nodup.map_on ?_ ((List.nodup_range _).filter _)
  intro x hx y hy hxy
  have hxr : x < (descendingOrder pd).length :=
    List.mem_range.mp (List.mem_filter.mp hx).1
  have hyr : y < (descendingOrder pd).length :=
    List.mem_range.mp (List.mem_filter.mp hy).1
  rw [List.getD_eq_getElem _ 0 hxr, List.getD_eq_getElem _ 0 hyr] at hxy
  have hnd := descendingOrder_nodup pd
  exact (List.Nodup.getElem_inj_iff hnd).mp hxy

theorem cullIndices_lt {α : Type} [LinearOrderedField α] (pd : List α)
    (mf : ℕ) (mp : α) :
    ∀ x ∈ cullLoop pd mf mp (descendingOrder pd) 0 0, x < pd.length := by
  intro x hx
  obtain ⟨m, hm, heq, _⟩ := cullIndices_mem pd mf mp x hx
  have hmem : (descendingOrder pd).getD m 0 ∈ descendingOrder pd := by
    rw [List.getD_eq_getElem _ 0 hm]
    exact List.getElem_mem hm
  rw [heq] at hmem
  have := (descendingOrder_perm pd).mem_iff.mp hmem
  exact List.mem_range.mp this

/-- C8 (amended): after `cull_probabilities(max_features, max_probability)`,
every removed index's probability is at most (not necessarily strictly
below) the probability of every retained index, and the retained entry
count is at most `max_features` (so in particular the claim's disjunction
holds).  Requires non-negative stored probabilities. -/
theorem claim_C8_cull_monotone_amended {κ δ α : Type} [DecidableEq κ]
    [LinearOrderedField α] (t : DiscreteProbabilities κ δ α)
    (max_features : ℕ) (max_probability : α)
    (h0 : ∀ p ∈ t.probabilities_array, 0 ≤ p) :
    (∀ i ∈ cullLoop t.probabilities_array max_features max_probability
        (descendingOrder t.probabilities_array) 0 0,
      ∀ j < t.probabilities_array.length,
        j ∉ cullLoop t.probabilities_array max_features max_probability
            (descendingOrder t.probabilities_array) 0 0 →
          t.probabilities_array.getD i 0 ≤ t.probabilities_array.getD j 0) ∧
    ((t.cull_probabilities max_features max_probability).probabilities_array.length
        ≤ max_features ∨
      (t.cull_probabilities max_features max_probability).probabilities_array.sum
        < max_probability) := by
  constructor
  · intro i hi j hj hjnot
    obtain ⟨m1, hm1lt, hm1eq, hm1cond⟩ :=
      cullIndices_mem t.probabilities_array max_features max_probability i hi
    have hjdesc : j ∈ descendingOrder t.probabilities_array :=
      (descendingOrder_perm t.probabilities_array).mem_iff.mpr (List.mem_range.mpr hj)
    obtain ⟨m2, hm2⟩ := List.mem_iff_get.mp hjdesc
    have hm2not : ¬(max_features ≤ m2.val ∨ max_probability ≤
        visitMass t.probabilities_array (descendingOrder t.probabilities_array) m2.val) := by
      intro hc
      apply hjnot
      have hin := cullIndices_of_cond t.probabilities_array max_features max_probability
        m2.val m2.isLt hc
      rw [List.getD_eq_getElem _ 0 m2.isLt] at hin
      rw [← hm2]
      rw [List.get_eq_getElem] at *
      exact hin
    have hlt : m2.val < m1 := by
      by_contra hge
      push_neg at hge
      apply hm2not
      rcases hm1cond with h | h
      · left
        omega
      · right
        exact le_trans h (visitMass_mono t.probabilities_array h0 _ m1 m2.val hge)
    have hr := List.Sorted.rel_get_of_lt (descendingOrder_sorted t.probabilities_array)
      (a := ⟨m2.val, m2.isLt⟩) (b := ⟨m1, hm1lt⟩) hlt
    have hieq : (descendingOrder t.probabilities_array).get ⟨m1, hm1lt⟩ = i := by
      rw [List.get_eq_getElem, ← List.getD_eq_getElem _ 0 hm1lt]
      exact hm1eq
    rw [hieq, hm2] at hr
    exact hr
  · left
    have hrfl : (t.cull_probabilities max_features max_probability).probabilities_array
        = deleteIndices t.probabilities_array
            (cullLoop t.probabilities_array max_features max_probability
              (descendingOrder t.probabilities_array) 0 0) := rfl
    rw [hrfl, length_deleteIndices, ← List.countP_eq_length_filter]
    have hsum := countP_not_add
      (fun m => decide (m ∈ cullLoop t.probabilities_array max_features max_probability
        (descendingOrder t.probabilities_array) 0 0))
      (List.range t.probabilities_array.length)
    have hci_len : (List.range t.probabilities_array.length).countP
        (fun m => decide (m ∈ cullLoop t.probabilities_array max_features max_probability
          (descendingOrder t.probabilities_array) 0 0))
        = (cullLoop t.probabilities_array max_features max_probability
            (descendingOrder t.probabilities_array) 0 0).length :=
      countP_mem_eq_length _ _ (cullIndices_nodup _ _ _) (cullIndices_lt _ _ _)
    have hlen2 : (cullLoop t.probabilities_array max_features max_probability
          (descendingOrder t.probabilities_array) 0 0).length
        = ((List.range (descendingOrder t.probabilities_array).length).filter
            (fun m => decide (max_features ≤ m ∨ max_probability ≤
              visitMass t.probabilities_array
                (descendingOrder t.probabilities_array) m))).length := by
      rw [cullLoop_eq]
      simp only [zero_add, List.length_map]
    have hmono := List.countP_mono_left
      (l := List.range (descendingOrder t.probabilities_array).length)
      (p := fun m => decide (max_features ≤ m))
      (q := fun m => decide (max_features ≤ m ∨ max_probability ≤
        visitMass t.probabilities_array (descendingOrder t.probabilities_array) m))
      (fun a _ ha => decide_eq_true (Or.inl (of_decide_eq_true ha)))
    have hge := countP_le_range max_features (descendingOrder t.probabilities_array).length
    have hdlen := descendingOrder_length t.probabilities_array
    rw [← List.countP_eq_length_filter] at hlen2
    rw [List.length_range] at hsum
    omega

/-- A table with two entries of equal probability. -/
def exampleCullTable : DiscreteProbabilities ℕ ℕ ℚ :=
  ⟨[0, 1], [0, 0], [(0, 1), (1, 1)], [1, 1]⟩

/-- C8 counterexample: culling `exampleCullTable` with `max_features = 1`
removes one of two equal-probability entries, so the removed index's
probability is *not* strictly lower than the retained one's. -/
theorem claim_C8_strict_counterexample :
    ¬(∀ i ∈ cullLoop exampleCullTable.probabilities_array 1 3
        (descendingOrder exampleCullTable.probabilities_array) 0 0,
      ∀ j < exampleCullTable.probabilities_array.length,
        j ∉ cullLoop exampleCullTable.probabilities_array 1 3
            (descendingOrder exampleCullTable.probabilities_array) 0 0 →
          exampleCullTable.probabilities_array.getD i 0
            < exampleCullTable.probabilities_array.getD j 0) := by
  decide

theorem claim_C8_cull_monotone_amended_witness :
    (∀ p ∈ exampleCullTable.probabilities_array, (0:ℚ) ≤ p) ∧
    ((∀ i ∈ cullLoop exampleCullTable.probabilities_array 1 3
        (descendingOrder exampleCullTable.probabilities_array) 0 0,
      ∀ j < exampleCullTable.probabilities_array.length,
        j ∉ cullLoop exampleCullTable.probabilities_array 1 3
            (descendingOrder exampleCullTable.probabilities_array) 0 0 →
          exampleCullTable.probabilities_array.getD i 0
            ≤ exampleCullTable.probabilities_array.getD j 0) ∧
    ((exampleCullTable.cull_probabilities 1 3).probabilities_array.length ≤ 1 ∨
      (exampleCullTable.cull_probabilities 1 3).probabilities_array.sum < 3)) :=
  ⟨by decide, claim_C8_cull_monotone_amended exampleCullTable 1 3 (by decide)⟩

/-! ## Building probabilities from counts (log-domain normalization)

`probabilities_from_counts` (source lines 133-154) in exact real
arithmetic, and `add_probabilities` (source lines 126-131). -/

/-- `numpy.logaddexp` in exact real arithmetic. -/
noncomputable def logaddexp (a b : ℝ) : ℝ := Real.log (Real.exp a + Real.exp b)

/-- `numpy.logaddexp.reduce`: a left fold of `logaddexp` over a non-empty
list.  The source stores `None` for an empty list and never reads it; here
the unused empty-list value is `0`. -/
noncomputable def logaddexpReduce : List ℝ → ℝ
  | [] => 0
  | x :: xs => xs.foldl logaddexp x

/-- `probabilities_from_counts`: take logs of the counts, log-sum-exp them,
then assign every feature hash `exp(log count − log-sum)` when it has a
count and `0.0` otherwise, and rebuild the probability array. -/
noncomputable def DiscreteProbabilities.probabilities_from_counts
    {κ δ : Type} [DecidableEq κ]
    (t : DiscreteProbabilities κ δ ℝ) (counts : List (κ × ℕ)) :
    DiscreteProbabilities κ δ ℝ :=
  let log_counts : List (κ × ℝ) := counts.map (fun p => (p.1, Real.log (p.2 : ℝ)))
  let log_sum_of_counts : ℝ := logaddexpReduce (log_counts.map Prod.snd)
  let d := t.hashes_array.foldl (fun d' k =>
    dset d' k (match dlookup k log_counts with
      | some lc => Real.exp (lc - log_sum_of_counts)
      | none => 0)) t.probabilities
  DiscreteProbabilities.convert_probabilities { t with probabilities := d }

/-- The assignment loop of `add_probabilities`: for every feature hash of
the table, look the hash up in the argument mapping — a missing hash is a
`KeyError` (`none`) — and overwrite the table's probability with it. -/
def addProbLoop {κ α : Type} [DecidableEq κ] (m : List (κ × α)) :
    List κ → List (κ × α) → Option (List (κ × α))
  | [], d => some d
  | k :: ks, d =>
    match dlookup k m with
    | none => none
    | some v => addProbLoop m ks (dset d k v)

/-- `add_probabilities`: overwrite the probability of every feature hash of
the table with the argument mapping's value, then rebuild the probability
array; fails (`KeyError`) when a table hash is missing from the argument. -/
def DiscreteProbabilities.add_probabilities {κ δ α : Type} [DecidableEq κ] [Zero α]
    (t : DiscreteProbabilities κ δ α) (m : List (κ × α)) :
    Option (DiscreteProbabilities κ δ α) :=
  (addProbLoop m t.hashes_array t.probabilities).map
    (fun d => DiscreteProbabilities.convert_probabilities { t with probabilities := d })

theorem dlookup_foldl_dset_not_mem {κ α : Type} [DecidableEq κ] (v : κ → α)
    (hs : List κ) (d : List (κ × α)) (k : κ) (hk : k ∉ hs) :
    dlookup k (hs.foldl (fun d' k' => dset d' k' (v k')) d) = dlookup k d := by
  induction hs generalizing d with
  | nil => rfl
  | cons k' ks ih =>
    rw [List.foldl_cons]
    have hne : k ≠ k' := fun h => hk (h ▸ List.mem_cons_self k' ks)
    have hnk : k ∉ ks := fun h => hk (List.mem_cons_of_mem k' h)
    rw [ih _ hnk, dlookup_dset_ne _ _ _ _ hne]

theorem dlookup_foldl_dset_mem {κ α : Type} [DecidableEq κ] (v : κ → α)
    (hs : List κ) (d : List (κ × α)) (k : κ) (hk : k ∈ hs) (hnd : hs.Nodup) :
    dlookup k (hs.foldl (fun d' k' => dset d' k' (v k')) d) = some (v k) := by
  induction hs generalizing d with
  | nil => cases hk
  | cons k' ks ih =>
    rw [List.foldl_cons]
    rcases List.mem_cons.mp hk with rfl | hmem
    · have hnotin : k ∉ ks := (List.nodup_cons.mp hnd).1
      rw [dlookup_foldl_dset_not_mem v ks _ k hnotin, dlookup_dset_self]
    · exact ih _ hmem (List.nodup_cons.mp hnd).2

theorem dlookup_eq_none_of_not_mem_keys {κ β : Type} [DecidableEq κ]
    (L : List (κ × β)) (k : κ) (h : k ∉ L.map Prod.fst) : dlookup k L = none := by
  induction L with
  | nil => rfl
  | cons q L' ih =>
    rw [dlookup]
    rw [List.map_cons] at h
    rw [if_neg (fun hq : q.1 = k => h (hq ▸ List.mem_cons_self q.1 _))]
    exact ih (fun hm => h (List.mem_cons_of_mem _ hm))

theorem dlookup_map_pair {κ β γ : Type} [DecidableEq κ] (L : List (κ × β))
    (f : κ × β → γ) (hnd : (L.map Prod.fst).Nodup) (p : κ × β) (hp : p ∈ L) :
    dlookup p.1 (L.map (fun q => (q.1, f q))) = some (f p) := by
  induction L with
  | nil => cases hp
  | cons q L' ih =>
    rw [List.map_cons, dlookup]
    by_cases h : q.1 = p.1
    · rw [if_pos h]
      rcases List.mem_cons.mp hp with rfl | hpL'
      · rfl
      · exfalso
        have hmem : p.1 ∈ L'.map Prod.fst := List.mem_map.mpr ⟨p, hpL', rfl⟩
        rw [← h] at hmem
        rw [List.map_cons] at hnd
        exact (List.nodup_cons.mp hnd).1 hmem
    · rw [if_neg h]
      rcases List.mem_cons.mp hp with rfl | hpL'
      · exact absurd rfl h
      · rw [List.map_cons] at hnd
        exact ih (List.nodup_cons.mp hnd).2 hpL'

theorem sum_map_update {κ : Type} [DecidableEq κ] (hs : List κ) (hnd : hs.Nodup)
    (a : κ) (ha : a ∈ hs) (f f' : κ → ℝ) (hne : ∀ k, k ≠ a → f k = f' k) :
    (hs.map f).sum = (hs.map f').sum + (f a - f' a) := by
  induction hs with
  | nil => cases ha
  | cons x hs' ih =>
    rw [List.map_cons, List.map_cons, List.sum_cons, List.sum_cons]
    by_cases hxa : x = a
    · subst hxa
      have hnotin : x ∉ hs' := (List.nodup_cons.mp hnd).1
      have hmaps : hs'.map f = hs'.map f' :=
        List.map_congr_left (fun k hk => hne k (fun he => hnotin (he ▸ hk)))
      rw [hmaps]
      ring
    · have hmem : a ∈ hs' := by
        rcases List.mem_cons.mp ha with he | hm
        · exact absurd he.symm hxa
        · exact hm
      rw [hne x hxa, ih (List.nodup_cons.mp hnd).2 hmem]
      ring

theorem sum_map_lookup {κ : Type} [DecidableEq κ] (w : ℝ → ℝ) :
    ∀ (L : List (κ × ℝ)) (hs : List κ), hs.Nodup → (L.map Prod.fst).Nodup →
      (∀ q ∈ L, q.1 ∈ hs) →
      (hs.map (fun k => match dlookup k L with
        | some y => w y
        | none => (0:ℝ))).sum = (L.map (fun q => w q.2)).sum := by
  intro L
  induction L with
  | nil =>
    intro hs _ _ _
    simp [dlookup]
  | cons q L' ih =>
    intro hs hnd hndL hsub
    have hq1 : q.1 ∈ hs := hsub q (List.mem_cons_self q L')
    rw [List.map_cons] at hndL
    have hq1keys : q.1 ∉ L'.map Prod.fst := (List.nodup_cons.mp hndL).1
    have hq1none : dlookup q.1 L' = none :=
      dlookup_eq_none_of_not_mem_keys L' q.1 hq1keys
    have hstep := sum_map_update hs hnd q.1 hq1
      (fun k => match dlookup k (q :: L') with
        | some y => w y
        | none => (0:ℝ))
      (fun k => match dlookup k L' with
        | some y => w y
        | none => (0:ℝ))
      (fun k hk => by
        show (match dlookup k (q :: L') with
          | some y => w y
          | none => (0:ℝ)) = (match dlookup k L' with
          | some y => w y
          | none => (0:ℝ))
        have hkq : dlookup k (q :: L') = dlookup k L' := by
          rw [dlookup, if_neg (fun he : q.1 = k => hk he.symm)]
        rw [hkq])
    have hfa : (match dlookup q.1 (q :: L') with
        | some y => w y
        | none => (0:ℝ)) = w q.2 := by
      rw [dlookup, if_pos rfl]
    have hfa' : (match dlookup q.1 L' with
        | some y => w y
        | none => (0:ℝ)) = 0 := by
      rw [hq1none]
    rw [hstep, ih hs hnd (List.nodup_cons.mp hndL).2
      (fun p hp => hsub p (List.mem_cons_of_mem q hp))]
    rw [List.map_cons, List.sum_cons]
    simp only [hfa, hfa']
    ring

theorem foldl_logaddexp (cs : List ℕ) :
    ∀ (x : ℝ), 0 < x → (∀ c ∈ cs, 1 ≤ c) →
      List.foldl logaddexp (Real.log x) (cs.map (fun c : ℕ => Real.log (c : ℝ)))
        = Real.log (x + (cs.map (fun c : ℕ => (c : ℝ))).sum) := by
  induction cs with
  | nil =>
    intro x _ _
    simp
  | cons c cs' ih =>
    intro x hx hpos
    rw [List.map_cons, List.foldl_cons]
    have hc1 : 1 ≤ c := hpos c (List.mem_cons_self c cs')
    have hc : (0:ℝ) < (c:ℝ) := by
      have : (1:ℝ) ≤ (c:ℝ) := by exact_mod_cast hc1
      linarith
    have hstep : logaddexp (Real.log x) (Real.log (c:ℝ)) = Real.log (x + (c:ℝ)) := by
      rw [logaddexp, Real.exp_log hx, Real.exp_log hc]
    rw [hstep, ih (x + (c:ℝ)) (by linarith)
      (fun c' hc' => hpos c' (List.mem_cons_of_mem c hc'))]
    rw [List.map_cons, List.sum_cons]
    ring_nf

theorem logaddexpReduce_log (cs : List ℕ) (hne : cs ≠ []) (hpos : ∀ c ∈ cs, 1 ≤ c) :
    logaddexpReduce (cs.map (fun c : ℕ => Real.log (c : ℝ)))
      = Real.log ((cs.map (fun c : ℕ => (c : ℝ))).sum) := by
  cases cs with
  | nil => exact absurd rfl hne
  | cons c cs' =>
    rw [List.map_cons, logaddexpReduce]
    have hc1 : 1 ≤ c := hpos c (List.mem_cons_self c cs')
    have hc : (0:ℝ) < (c:ℝ) := by
      have : (1:ℝ) ≤ (c:ℝ) := by exact_mod_cast hc1
      linarith
    rw [foldl_logaddexp cs' (c:ℝ) hc (fun c' hc' => hpos c' (List.mem_cons_of_mem c hc'))]
    rw [List.map_cons, List.sum_cons]

/-- C2 (amended): for a non-empty count map all of whose keys are feature
hashes of the table (with positive counts, and no duplicate keys on either
side), `probabilities_from_counts` stores `exp(log count − logsumexp of all
log counts)` for every counted key, and the stored probabilities sum to
exactly `1` in real arithmetic. -/
theorem claim_C2_counts_normalized_amended {κ δ : Type} [DecidableEq κ]
    (t : DiscreteProbabilities κ δ ℝ) (counts : List (κ × ℕ))
    (hne : counts ≠ [])
    (hndc : (counts.map Prod.fst).Nodup)
    (hndh : t.hashes_array.Nodup)
    (hsub : ∀ p ∈ counts, p.1 ∈ t.hashes_array)
    (hpos : ∀ p ∈ counts, 1 ≤ p.2) :
    (t.probabilities_from_counts counts).probabilities_array.sum = 1 ∧
    (∀ p ∈ counts,
      dlookup p.1 (t.probabilities_from_counts counts).probabilities
        = some (Real.exp (Real.log (p.2 : ℝ)
            - logaddexpReduce (counts.map (fun q => Real.log (q.2 : ℝ)))))) := by
  set L : List (κ × ℝ) := counts.map (fun p => (p.1, Real.log (p.2 : ℝ))) with hL
  set ls : ℝ := logaddexpReduce (L.map Prod.snd) with hls
  set v : κ → ℝ := fun k => match dlookup k L with
    | some lc => Real.exp (lc - ls)
    | none => 0 with hv
  have hdict : (t.probabilities_from_counts counts).probabilities
      = t.hashes_array.foldl (fun d' k => dset d' k (v k)) t.probabilities := rfl
  have hlook : ∀ k ∈ t.hashes_array,
      dlookup k (t.probabilities_from_counts counts).probabilities = some (v k) := by
    intro k hk
    rw [hdict]
    exact dlookup_foldl_dset_mem v _ _ k hk hndh
  have hkeys : L.map Prod.fst = counts.map Prod.fst := by
    rw [hL, List.map_map]
    rfl
  have hsnd : L.map Prod.snd = (counts.map Prod.snd).map (fun c : ℕ => Real.log (c : ℝ)) := by
    rw [hL, List.map_map, List.map_map]
    rfl
  have hposc : ∀ c ∈ counts.map Prod.snd, 1 ≤ c := by
    intro c hc
    obtain ⟨p, hp, rfl⟩ := List.mem_map.mp hc
    exact hpos p hp
  have hnec : counts.map Prod.snd ≠ [] := by
    intro h
    exact hne (List.map_eq_nil_iff.mp h)
  set S : ℝ := ((counts.map Prod.snd).map (fun c : ℕ => (c : ℝ))).sum with hS
  have hlsS : ls = Real.log S := by
    rw [hls, hsnd, hS]
    exact logaddexpReduce_log _ hnec hposc
  have hSpos : 0 < S := by
    rw [hS]
    refine List.sum_pos _ (fun x hx => ?_) ?_
    · obtain ⟨c, hc, rfl⟩ := List.mem_map.mp hx
      have h1 : (1:ℝ) ≤ (c:ℝ) := by exact_mod_cast hposc c hc
      linarith
    · intro h
      exact hnec (List.map_eq_nil_iff.mp h)
  have hform : ls = logaddexpReduce (counts.map (fun q => Real.log (q.2 : ℝ))) := by
    rw [hls, hL, List.map_map]
    rfl
  constructor
  · have harr : (t.probabilities_from_counts counts).probabilities_array
        = t.hashes_array.map (fun k =>
            (dlookup k (t.hashes_array.foldl (fun d' k' => dset d' k' (v k'))
              t.probabilities)).getD 0) := rfl
    rw [harr]
    have harr2 : t.hashes_array.map (fun k =>
          (dlookup k (t.hashes_array.foldl (fun d' k' => dset d' k' (v k'))
            t.probabilities)).getD 0)
        = t.hashes_array.map v := by
      refine List.map_congr_left (fun k hk => ?_)
      rw [dlookup_foldl_dset_mem v _ _ k hk hndh]
      rfl
    rw [harr2]
    have hsubL : ∀ q ∈ L, q.1 ∈ t.hashes_array := by
      intro q hq
      rw [hL] at hq
      obtain ⟨p, hp, rfl⟩ := List.mem_map.mp hq
      exact hsub p hp
    have hndL : (L.map Prod.fst).Nodup := by
      rw [hkeys]
      exact hndc
    have hsum := sum_map_lookup (fun y => Real.exp (y - ls)) L t.hashes_array
      hndh hndL hsubL
    have hgoal1 : (t.hashes_array.map v).sum = (L.map (fun q => Real.exp (q.2 - ls))).sum := by
      rw [hv]
      exact hsum
    rw [hgoal1]
    have hmm2 : L.map (fun q => Real.exp (q.2 - ls))
        = counts.map (fun p => Real.exp (Real.log (p.2 : ℝ) - ls)) := by
      rw [hL, List.map_map]
      rfl
    rw [hmm2, hlsS]
    have hpt : counts.map (fun p => Real.exp (Real.log (p.2 : ℝ) - Real.log S))
        = counts.map (fun p => (p.2 : ℝ) * S⁻¹) := by
      refine List.map_congr_left (fun p hp => ?_)
      have hc : (0:ℝ) < (p.2 : ℝ) := by
        have h1 : (1:ℝ) ≤ (p.2:ℝ) := by exact_mod_cast hpos p hp
        linarith
      rw [Real.exp_sub, Real.exp_log hc, Real.exp_log hSpos, div_eq_mul_inv]
    rw [hpt, List.sum_map_mul_right]
    have hSS : (counts.map (fun p => (p.2 : ℝ))).sum = S := by
      rw [hS, List.map_map]
      rfl
    rw [hSS]
    exact mul_inv_cancel₀ (ne_of_gt hSpos)
  · intro p hp
    rw [hlook p.1 (hsub p hp)]
    have hlk : dlookup p.1 L = some (Real.log (p.2 : ℝ)) := by
      rw [hL]
      exact dlookup_map_pair counts (fun q => Real.log (q.2 : ℝ)) hndc p hp
    rw [hv]
    simp only [hlk]
    rw [hform]

/-- A table holding the single feature hash `0`. -/
def exampleMissTable : DiscreteProbabilities ℕ ℕ ℝ := ⟨[0], [0], [(0, 0)], [0]⟩

/-- C2 counterexample: passing a non-empty count map whose key is not a
feature hash of the table leaves every stored probability at `0`, so the
probabilities sum to `0`, not `1`. -/
theorem claim_C2_counts_counterexample :
    (exampleMissTable.probabilities_from_counts [(1, 1)]).probabilities_array.sum = 0 ∧
    (0 : ℝ) ≠ 1 := by
  constructor
  · have harr : (exampleMissTable.probabilities_from_counts [(1, 1)]).probabilities_array
        = [0] := by
      show List.map _ _ = [0]
      simp [exampleMissTable, dlookup, dset]
    rw [harr]
    simp
  · norm_num

theorem claim_C2_counts_normalized_amended_witness :
    (([((0:ℕ), (1:ℕ)), (1, 1)] : List (ℕ × ℕ)) ≠ [] ∧
      (([((0:ℕ), (1:ℕ)), (1, 1)] : List (ℕ × ℕ)).map Prod.fst).Nodup) ∧
    ((DiscreteProbabilities.probabilities_from_counts
        (⟨[0, 1], [0, 0], [(0, 0), (1, 0)], [0, 0]⟩ : DiscreteProbabilities ℕ ℕ ℝ)
        [(0, 1), (1, 1)]).probabilities_array.sum = 1 ∧
      (∀ p ∈ ([((0:ℕ), (1:ℕ)), (1, 1)] : List (ℕ × ℕ)),
        dlookup p.1 (DiscreteProbabilities.probabilities_from_counts
            (⟨[0, 1], [0, 0], [(0, 0), (1, 0)], [0, 0]⟩ : DiscreteProbabilities ℕ ℕ ℝ)
            [(0, 1), (1, 1)]).probabilities
          = some (Real.exp (Real.log (p.2 : ℝ)
              - logaddexpReduce (([((0:ℕ), (1:ℕ)), (1, 1)] : List (ℕ × ℕ)).map
                  (fun q => Real.log (q.2 : ℝ))))))) :=
  ⟨⟨by decide, by decide⟩,
    claim_C2_counts_normalized_amended
      (⟨[0, 1], [0, 0], [(0, 0), (1, 0)], [0, 0]⟩ : DiscreteProbabilities ℕ ℕ ℝ)
      [(0, 1), (1, 1)] (by decide) (by decide) (by decide) (by decide) (by decide)⟩

/-- C9 (amended): passing an *empty* count map to
`probabilities_from_counts` zero-fills the table — every feature hash is
assigned probability `0.0` — rather than leaving the keys unassigned. -/
theorem claim_C9_empty_counts_zero_fill {κ δ : Type} [DecidableEq κ]
    (t : DiscreteProbabilities κ δ ℝ) (hndh : t.hashes_array.Nodup) :
    ∀ k ∈ t.hashes_array,
      dlookup k (t.probabilities_from_counts []).probabilities = some 0 := by
  intro k hk
  have hdict : (t.probabilities_from_counts []).probabilities
      = t.hashes_array.foldl (fun d' k' => dset d' k' ((fun _ => (0:ℝ)) k'))
          t.probabilities := rfl
  rw [hdict]
  exact dlookup_foldl_dset_mem (fun _ => (0:ℝ)) _ _ k hk hndh

/-- A table whose single feature hash `0` currently has probability
`7/10`. -/
noncomputable def exampleNonzeroTable : DiscreteProbabilities ℕ ℕ ℝ :=
  ⟨[0], [0], [(0, 7/10)], [7/10]⟩

/-- C9 counterexample: after passing an empty count map, the stored
probability of key `0` is `0.0` — it was assigned (zero-filled), not left
at its previous value `7/10` as "no entries are assigned" would require. -/
theorem claim_C9_empty_counts_counterexample :
    dlookup 0 (exampleNonzeroTable.probabilities_from_counts []).probabilities
      = some 0 ∧ (0 : ℝ) ≠ 7/10 := by
  constructor
  · show dlookup 0 (dset [(0, 7/10)] 0 ((fun _ => (0:ℝ)) 0)) = some 0
    rw [dset]
    simp [dlookup]
  · norm_num

theorem claim_C9_empty_counts_zero_fill_witness :
    (⟨[0], [0], [(0, 7/10)], [7/10]⟩
        : DiscreteProbabilities ℕ ℕ ℝ).hashes_array.Nodup ∧
    (∀ k ∈ (⟨[0], [0], [(0, 7/10)], [7/10]⟩
        : DiscreteProbabilities ℕ ℕ ℝ).hashes_array,
      dlookup k ((⟨[0], [0], [(0, 7/10)], [7/10]⟩
          : DiscreteProbabilities ℕ ℕ ℝ).probabilities_from_counts []).probabilities
        = some 0) :=
  ⟨by decide,
    claim_C9_empty_counts_zero_fill
      (⟨[0], [0], [(0, 7/10)], [7/10]⟩ : DiscreteProbabilities ℕ ℕ ℝ) (by decide)⟩

/-! ## `add_probabilities` (claim C4) -/

theorem addProbLoop_spec {κ α : Type} [DecidableEq κ] (m : List (κ × α)) :
    ∀ (hs : List κ) (d : List (κ × α)),
      (∀ k ∈ hs, (dlookup k m).isSome) →
      ∃ d', addProbLoop m hs d = some d' ∧
        (∀ k, k ∉ hs → dlookup k d' = dlookup k d) ∧
        (∀ k ∈ hs, dlookup k d' = dlookup k m) := by
  intro hs
  induction hs with
  | nil =>
    intro d _
    exact ⟨d, rfl, fun k _ => rfl, fun k hk => absurd hk (List.not_mem_nil k)⟩
  | cons k' ks ih =>
    intro d hall
    obtain ⟨v, hv⟩ := Option.isSome_iff_exists.mp (hall k' (List.mem_cons_self k' ks))
    obtain ⟨d', hrun, hout, hin⟩ :=
      ih (dset d k' v) (fun k hk => hall k (List.mem_cons_of_mem _ hk))
    refine ⟨d', ?_, ?_, ?_⟩
    · show addProbLoop m (k' :: ks) d = some d'
      rw [addProbLoop, hv]
      exact hrun
    · intro k hk
      have hk' : k ≠ k' := fun h => hk (h ▸ List.mem_cons_self k' ks)
      have hks : k ∉ ks := fun h => hk (List.mem_cons_of_mem _ h)
      rw [hout k hks, dlookup_dset_ne _ _ _ _ hk']
    · intro k hk
      rcases List.mem_cons.mp hk with rfl | hmem
      · by_cases hkin : k ∈ ks
        · exact hin k hkin
        · rw [hout k hkin, dlookup_dset_self, hv]
      · exact hin k hmem

/-- A table holding the single feature hash `0` with probability `1`. -/
def exampleAddTable : DiscreteProbabilities ℕ ℕ ℚ := ⟨[0], [0], [(0, 1)], [1]⟩

/-- C4 counterexample: calling `add_probabilities` with a mapping that
lacks a feature hash of the table *fails* (`KeyError` on `probabilities[h]`)
instead of leaving that key's probability unchanged. -/
theorem claim_C4_missing_key_counterexample :
    exampleAddTable.add_probabilities [] = none := rfl

/-- C4 (amended): `add_probabilities` overwrites the probability of *every*
feature hash of the table with the argument mapping's value (argument keys
outside the table are ignored and non-table probabilities are untouched);
when some feature hash is missing from the argument the call fails with a
`KeyError` instead of leaving that key unchanged. -/
theorem claim_C4_add_overwrites_amended {κ δ α : Type} [DecidableEq κ] [Zero α]
    (t : DiscreteProbabilities κ δ α) (m : List (κ × α))
    (hall : ∀ k ∈ t.hashes_array, (dlookup k m).isSome) :
    ∃ t', t.add_probabilities m = some t' ∧
      t'.hashes_array = t.hashes_array ∧
      t'.data_array = t.data_array ∧
      (∀ k ∈ t.hashes_array, dlookup k t'.probabilities = dlookup k m) ∧
      (∀ k, k ∉ t.hashes_array → dlookup k t'.probabilities = dlookup k t.probabilities) := by
  obtain ⟨d', hrun, hout, hin⟩ := addProbLoop_spec m t.hashes_array t.probabilities hall
  refine ⟨DiscreteProbabilities.convert_probabilities { t with probabilities := d' },
    ?_, rfl, rfl, hin, hout⟩
  rw [DiscreteProbabilities.add_probabilities, hrun]
  rfl

theorem claim_C4_add_overwrites_amended_witness :
    (∀ k ∈ exampleAddTable.hashes_array,
      (dlookup k [((0:ℕ), (2:ℚ)), (5, 3)]).isSome) ∧
    (∃ t', exampleAddTable.add_probabilities [((0:ℕ), (2:ℚ)), (5, 3)] = some t' ∧
      t'.hashes_array = exampleAddTable.hashes_array ∧
      t'.data_array = exampleAddTable.data_array ∧
      (∀ k ∈ exampleAddTable.hashes_array,
        dlookup k t'.probabilities = dlookup k [((0:ℕ), (2:ℚ)), (5, 3)]) ∧
      (∀ k, k ∉ exampleAddTable.hashes_array →
        dlookup k t'.probabilities = dlookup k exampleAddTable.probabilities)) :=
  ⟨by decide,
    claim_C4_add_overwrites_amended exampleAddTable [((0:ℕ), (2:ℚ)), (5, 3)] (by decide)⟩

/-! ## Topologies re-encoded from trees (claim C6)

The Tree Source collaborator (ete2 parsing) is external; a parsed tree is
modelled as a strictly bifurcating `PTree`.  `recurse_node_properties`
(source lines 43-53), `generate_topology_array` (24-41) and
`TopologyProbabilities.probabilities_from_ccs` (184-203). -/

/-- An in-memory strictly bifurcating tree, as handed over by the external
tree library: a leaf with its taxon name, or an internal node with exactly
two children. -/
inductive PTree where
  | leaf (name : String)
  | node (child1 child2 : PTree)

/-- `get_leaf_names`: the tree's leaf names, left to right. -/
def leafNames : PTree → List String
  | .leaf s => [s]
  | .node c1 c2 => leafNames c1 ++ leafNames c2

/-- `recurse_node_properties`: post-order collection of one
(clade id, split id) record per internal node. -/
def recurse_node_properties (taxon_order : List String) : PTree → List (List ℕ × List ℕ)
  | .leaf _ => []
  | .node c1 c2 =>
    recurse_node_properties taxon_order c1 ++ recurse_node_properties taxon_order c2 ++
      [calculate_node_hashes (leafNames c1) (leafNames c2) taxon_order]

/-- Lexicographic order on byte strings (how `numpy` compares the
fixed-width byte-string fields). -/
def bytesLe : List ℕ → List ℕ → Bool
  | [], _ => true
  | _ :: _, [] => false
  | a :: as, b :: bs =>
    if a < b then true
    else if b < a then false
    else bytesLe as bs

/-- The record order of the sorted topology array: lexicographic on
(clade id, split id), the order of the source's structured `numpy` sort. -/
def recordLe (x y : List ℕ × List ℕ) : Bool :=
  if x.1 = y.1 then bytesLe x.2 y.2 else bytesLe x.1 y.1

/-- `generate_topology_array`: collect the records and sort them into the
canonical order. -/
def generate_topology_array (taxon_order : List String) (tr : PTree) :
    List (List ℕ × List ℕ) :=
  List.insertionSort (fun x y => recordLe x y = true) (recurse_node_properties taxon_order tr)

/-- Lexicographic order on character lists by code point (Python's string
order for the taxon sort). -/
def charsLe : List Char → List Char → Bool
  | [], _ => true
  | _ :: _, [] => false
  | a :: as, b :: bs =>
    if a.toNat < b.toNat then true
    else if b.toNat < a.toNat then false
    else charsLe as bs

/-- `TopologySample.__init__`'s taxon order: the lexicographically sorted
leaf names of the first tree. -/
def sampleTaxonOrder (data : List PTree) : List String :=
  match data with
  | [] => []
  | tr :: _ => List.insertionSort (fun a b => charsLe a.data b.data = true) (leafNames tr)

/-- `cc_sets[parent_hash].probabilities[split_hash]`: both dictionary
lookups, either of which can raise `KeyError`. -/
def splitLookup {δ' α : Type} (cc_sets : List (List ℕ × DiscreteProbabilities (List ℕ) δ' α))
    (r : List ℕ × List ℕ) : Option α :=
  match dlookup r.1 cc_sets with
  | none => none
  | some dp => dlookup r.2 dp.probabilities

/-- The per-topology collection loop of `probabilities_from_ccs`: for every
record whose clade has at least three taxa, look up the conditional
probability of its split (a missing clade or split is a `KeyError`);
records of smaller clades are skipped. -/
def nodeProbsLoop {δ' α : Type} (cc_sets : List (List ℕ × DiscreteProbabilities (List ℕ) δ' α)) :
    List (List ℕ × List ℕ) → Option (List α)
  | [] => some []
  | r :: rs =>
    if 3 ≤ clade_size r.1 then
      match splitLookup cc_sets r with
      | none => none
      | some sp => (nodeProbsLoop cc_sets rs).map (fun l => sp :: l)
    else nodeProbsLoop cc_sets rs

/-- The outer loop of `probabilities_from_ccs`: assign every topology hash
the product of its collected conditional probabilities. -/
def ccsLoop {κ δ' α : Type} [DecidableEq κ] [LinearOrderedField α]
    (cc_sets : List (List ℕ × DiscreteProbabilities (List ℕ) δ' α))
    (taxon_order : List String) :
    List (κ × PTree) → List (κ × α) → Option (List (κ × α))
  | [], d => some d
  | (h, tr) :: rest, d =>
    match nodeProbsLoop cc_sets (generate_topology_array taxon_order tr) with
    | none => none
    | some probs => ccsLoop cc_sets taxon_order rest (dset d h probs.prod)

/-- `TopologyProbabilities.probabilities_from_ccs`: reparse the stored
topologies (the taxon order is rebuilt from the first stored tree), collect
each topology's conditional split probabilities and store their product as
the topology's probability. -/
def probabilities_from_ccs {κ δ' α : Type} [DecidableEq κ] [LinearOrderedField α]
    (t : DiscreteProbabilities κ PTree α)
    (cc_sets : List (List ℕ × DiscreteProbabilities (List ℕ) δ' α)) :
    Option (DiscreteProbabilities κ PTree α) :=
  (ccsLoop cc_sets (sampleTaxonOrder t.data_array)
      (t.hashes_array.zip t.data_array) t.probabilities).map
    (fun d => DiscreteProbabilities.convert_probabilities { t with probabilities := d })

theorem nodeProbsLoop_eq {δ' α : Type} [LinearOrderedField α]
    (cc_sets : List (List ℕ × DiscreteProbabilities (List ℕ) δ' α)) :
    ∀ (rs : List (List ℕ × List ℕ)),
      (∀ r ∈ rs, 3 ≤ clade_size r.1 → (splitLookup cc_sets r).isSome) →
      nodeProbsLoop cc_sets rs
        = some ((rs.filter (fun r => decide (3 ≤ clade_size r.1))).map
            (fun r => (splitLookup cc_sets r).getD 0)) := by
  intro rs
  induction rs with
  | nil => intro _; rfl
  | cons r rs' ih =>
    intro hok
    by_cases h3 : 3 ≤ clade_size r.1
    · obtain ⟨sp, hsp⟩ := Option.isSome_iff_exists.mp
        (hok r (List.mem_cons_self r rs') h3)
      rw [nodeProbsLoop, if_pos h3, hsp]
      rw [ih (fun r' hr' => hok r' (List.mem_cons_of_mem r hr'))]
      rw [List.filter_cons, if_pos (by simpa using h3)]
      rw [List.map_cons, hsp]
      rfl
    · rw [nodeProbsLoop, if_neg h3]
      rw [List.filter_cons, if_neg (by simpa using h3)]
      exact ih (fun r' hr' => hok r' (List.mem_cons_of_mem r hr'))

theorem ccsLoop_spec {κ δ' α : Type} [DecidableEq κ] [LinearOrderedField α]
    (cc_sets : List (List ℕ × DiscreteProbabilities (List ℕ) δ' α))
    (taxon_order : List String) :
    ∀ (pairs : List (κ × PTree)) (d : List (κ × α)),
      (∀ pair ∈ pairs,
        (nodeProbsLoop cc_sets (generate_topology_array taxon_order pair.2)).isSome) →
      ∃ d', ccsLoop cc_sets taxon_order pairs d = some d' ∧
        (∀ k, k ∉ pairs.map Prod.fst → dlookup k d' = dlookup k d) ∧
        ((pairs.map Prod.fst).Nodup →
          ∀ pair ∈ pairs, dlookup pair.1 d'
            = some (((nodeProbsLoop cc_sets
                (generate_topology_array taxon_order pair.2)).getD []).prod)) := by
  intro pairs
  induction pairs with
  | nil =>
    intro d _
    exact ⟨d, rfl, fun k _ => rfl, fun _ pair hp => absurd hp (List.not_mem_nil pair)⟩
  | cons p rest ih =>
    intro d hok
    obtain ⟨probs, hprobs⟩ := Option.isSome_iff_exists.mp
      (hok p (List.mem_cons_self p rest))
    obtain ⟨d', hrun, hout, hin⟩ :=
      ih (dset d p.1 probs.prod) (fun q hq => hok q (List.mem_cons_of_mem p hq))
    refine ⟨d', ?_, ?_, ?_⟩
    · show ccsLoop cc_sets taxon_order (p :: rest) d = some d'
      obtain ⟨h, tr⟩ := p
      rw [ccsLoop, hprobs]
      exact hrun
    · intro k hk
      rw [List.map_cons] at hk
      have hk1 : k ≠ p.1 := fun he => hk (he ▸ List.mem_cons_self p.1 _)
      have hk2 : k ∉ rest.map Prod.fst := fun hm => hk (List.mem_cons_of_mem _ hm)
      rw [hout k hk2, dlookup_dset_ne _ _ _ _ hk1]
    · intro hnd pair hpair
      rw [List.map_cons] at hnd
      rcases List.mem_cons.mp hpair with rfl | hmem
      · have hnotin : pair.1 ∉ rest.map Prod.fst := (List.nodup_cons.mp hnd).1
        rw [hout pair.1 hnotin, dlookup_dset_self, hprobs]
        rfl
      · exact hin (List.nodup_cons.mp hnd).2 pair hmem

/-- A three-taxon topology: `(a, (b, c))`. -/
def exampleTopoTree : PTree := .node (.leaf "a") (.node (.leaf "b") (.leaf "c"))

/-- A topology table holding the single topology `(a, (b, c))`. -/
def exampleTopoTable : DiscreteProbabilities ℕ PTree ℚ :=
  ⟨[0], [exampleTopoTree], [(0, 0)], [0]⟩

/-- C6 counterexample: with an empty conditional-clade model, the
three-taxon root clade of the stored topology is unobserved, and
`probabilities_from_ccs` *fails* with a `KeyError` (`none`) instead of
assigning the topology probability `0`. -/
theorem claim_C6_unobserved_split_counterexample :
    probabilities_from_ccs exampleTopoTable
      ([] : List (List ℕ × DiscreteProbabilities (List ℕ) ℕ ℚ)) = none := rfl

/-- C6 (amended): whenever every record of a stored topology whose clade
has at least three taxa finds its clade's table and its split's entry in
the conditional-clade model, `probabilities_from_ccs` succeeds and assigns
that topology the product of those records' conditional probabilities,
records of clades with at most two taxa being skipped (so a topology whose
every clade has at most two taxa gets the empty product, `1`).  When a
record's clade or split is missing, the call fails with a `KeyError`
instead of treating the probability as `0`. -/
theorem claim_C6_topology_product_amended {κ δ' α : Type} [DecidableEq κ]
    [LinearOrderedField α]
    (t : DiscreteProbabilities κ PTree α)
    (cc_sets : List (List ℕ × DiscreteProbabilities (List ℕ) δ' α))
    (hnd : t.hashes_array.Nodup)
    (hlen : t.hashes_array.length = t.data_array.length)
    (hok : ∀ pair ∈ t.hashes_array.zip t.data_array,
      ∀ r ∈ generate_topology_array (sampleTaxonOrder t.data_array) pair.2,
        3 ≤ clade_size r.1 → (splitLookup cc_sets r).isSome) :
    ∃ t', probabilities_from_ccs t cc_sets = some t' ∧
      t'.hashes_array = t.hashes_array ∧
      t'.data_array = t.data_array ∧
      ∀ pair ∈ t.hashes_array.zip t.data_array,
        dlookup pair.1 t'.probabilities
          = some ((((generate_topology_array (sampleTaxonOrder t.data_array) pair.2).filter
              (fun r => decide (3 ≤ clade_size r.1))).map
                (fun r => (splitLookup cc_sets r).getD 0)).prod) := by
  have hok2 : ∀ pair ∈ t.hashes_array.zip t.data_array,
      (nodeProbsLoop cc_sets
        (generate_topology_array (sampleTaxonOrder t.data_array) pair.2)).isSome := by
    intro pair hp
    rw [nodeProbsLoop_eq cc_sets _ (hok pair hp)]
    rfl
  obtain ⟨d', hrun, hout, hin⟩ := ccsLoop_spec cc_sets (sampleTaxonOrder t.data_array)
    (t.hashes_array.zip t.data_array) t.probabilities hok2
  have hndzip : ((t.hashes_array.zip t.data_array).map Prod.fst).Nodup := by
    rw [List.map_fst_zip _ _ (le_of_eq hlen)]
    exact hnd
  refine ⟨DiscreteProbabilities.convert_probabilities { t with probabilities := d' },
    ?_, rfl, rfl, ?_⟩
  · rw [probabilities_from_ccs, hrun]
    rfl
  · intro pair hp
    have h1 := hin hndzip pair hp
    rw [nodeProbsLoop_eq cc_sets _ (hok pair hp)] at h1
    exact h1

/-- A conditional-clade model holding the single clade `{a,b,c}` (packed
byte `224`) with its single observed split (packed byte `128`). -/
def exampleCcSets : List (List ℕ × DiscreteProbabilities (List ℕ) ℕ ℚ) :=
  [([224], ⟨[[128]], [0], [([128], 1)], [1]⟩)]

theorem claim_C6_topology_product_amended_witness :
    (exampleTopoTable.hashes_array.Nodup ∧
      exampleTopoTable.hashes_array.length = exampleTopoTable.data_array.length) ∧
    (∃ t', probabilities_from_ccs exampleTopoTable exampleCcSets = some t' ∧
      t'.hashes_array = exampleTopoTable.hashes_array ∧
      t'.data_array = exampleTopoTable.data_array ∧
      ∀ pair ∈ exampleTopoTable.hashes_array.zip exampleTopoTable.data_array,
        dlookup pair.1 t'.probabilities
          = some ((((generate_topology_array
                (sampleTaxonOrder exampleTopoTable.data_array) pair.2).filter
              (fun r => decide (3 ≤ clade_size r.1))).map
                (fun r => (splitLookup exampleCcSets r).getD 0)).prod)) :=
  ⟨⟨by decide, by decide⟩,
    claim_C6_topology_product_amended exampleTopoTable exampleCcSets
      (by decide) (by decide) (by decide)⟩

/-! ## Counting derived topologies (claim C7)

`n_derived_topologies` (source lines 562-601): a dynamic program over the
clades of the conditional-clade model in increasing size order.  (The
source also computes `reverse_cc_probabilities` at entry and never uses
it.)  Buckets hold clades of size `i + 3`; the source's `n_features`
iteration over paired `hashes_array`/`probabilities_array` entries becomes
a `zip`. -/

/-- The clades of the model with a given taxon count (the source's
`clades_by_size` bucket for sizes at least 3). -/
def cladesOfSize {δ' α : Type} (cc_sets : List (List ℕ × DiscreteProbabilities (List ℕ) δ' α))
    (s : ℕ) : List (List ℕ) :=
  (cc_sets.map Prod.fst).filter (fun h => clade_size h = s)

/-- The factor a child contributes to a split's subtree count: its stored
subtree count when it has more than two taxa (`KeyError` when absent),
and `1` otherwise. -/
def childFactor (n_subtrees : List (List ℕ × ℕ)) (child : List ℕ) : Option ℕ :=
  if 2 < clade_size child then dlookup child n_subtrees else some 1

/-- `n_split_subtrees`: starts at `1` and multiplies in each child's
factor. -/
def splitSubtrees (n_subtrees : List (List ℕ × ℕ)) (parent split : List ℕ) : Option ℕ :=
  match childFactor n_subtrees (elucidate_cc_split parent split).1,
      childFactor n_subtrees (elucidate_cc_split parent split).2 with
  | some f1, some f2 => some (1 * f1 * f2)
  | _, _ => none

/-- `n_parent_subtrees`: sum the subtree counts of the parent's splits,
skipping zero-probability splits unless `include_zero_probability` is
set. -/
def parentSubtrees {α : Type} [LinearOrderedField α] (include_zero : Bool)
    (n_subtrees : List (List ℕ × ℕ)) (parent : List ℕ) :
    List (List ℕ × α) → Option ℕ
  | [] => some 0
  | sp :: rest =>
    if include_zero || decide (0 < sp.2) then
      match splitSubtrees n_subtrees parent sp.1 with
      | none => none
      | some s =>
        (parentSubtrees include_zero n_subtrees parent rest).map (fun acc => s + acc)
    else parentSubtrees include_zero n_subtrees parent rest

/-- One bucket of the size loop: compute and store `n_subtrees[parent]`
for every parent of the current size. -/
def bucketLoop {δ' α : Type} [LinearOrderedField α]
    (cc_sets : List (List ℕ × DiscreteProbabilities (List ℕ) δ' α)) (include_zero : Bool) :
    List (List ℕ) → List (List ℕ × ℕ) → Option (List (List ℕ × ℕ))
  | [], ns => some ns
  | parent :: rest, ns =>
    match dlookup parent cc_sets with
    | none => none
    | some dp =>
      match parentSubtrees include_zero ns parent
          (dp.hashes_array.zip dp.probabilities_array) with
      | none => none
      | some np => bucketLoop cc_sets include_zero rest (dset ns parent np)

/-- The outer size loop: process the buckets for sizes `3 .. n_taxa` in
increasing order. -/
def allBucketsLoop {δ' α : Type} [LinearOrderedField α]
    (cc_sets : List (List ℕ × DiscreteProbabilities (List ℕ) δ' α)) (include_zero : Bool) :
    List ℕ → List (List ℕ × ℕ) → Option (List (List ℕ × ℕ))
  | [], ns => some ns
  | i :: rest, ns =>
    match bucketLoop cc_sets include_zero (cladesOfSize cc_sets (i + 3)) ns with
    | none => none
    | some ns' => allBucketsLoop cc_sets include_zero rest ns'

/-- `n_derived_topologies`: run the dynamic program and return the count
stored for the root clade (`KeyError` when the root was never computed). -/
def n_derived_topologies {δ' α : Type} [LinearOrderedField α]
    (cc_sets : List (List ℕ × DiscreteProbabilities (List ℕ) δ' α))
    (n_taxa : ℕ) (include_zero_probability : Bool) : Option ℕ :=
  match allBucketsLoop cc_sets include_zero_probability (List.range (n_taxa - 2)) [] with
  | none => none
  | some n_subtrees => dlookup (calculate_root_hash n_taxa) n_subtrees

theorem dlookup_isSome_of_mem_keys {κ β : Type} [DecidableEq κ]
    (L : List (κ × β)) (k : κ) (h : k ∈ L.map Prod.fst) : (dlookup k L).isSome := by
  induction L with
  | nil => simp at h
  | cons q L' ih =>
    rw [dlookup]
    by_cases hq : q.1 = k
    · rw [if_pos hq]
      rfl
    · rw [if_neg hq]
      rw [List.map_cons] at h
      rcases List.mem_cons.mp h with he | hm
      · exact absurd he.symm hq
      · exact ih hm

theorem dlookup_of_mem_nodup {κ β : Type} [DecidableEq κ]
    (L : List (κ × β)) (hnd : (L.map Prod.fst).Nodup) (p : κ × β) (hp : p ∈ L) :
    dlookup p.1 L = some p.2 := by
  induction L with
  | nil => cases hp
  | cons q L' ih =>
    rw [List.map_cons] at hnd
    rw [dlookup]
    by_cases hq : q.1 = p.1
    · rw [if_pos hq]
      rcases List.mem_cons.mp hp with rfl | hpL'
      · rfl
      · exfalso
        have : p.1 ∈ L'.map Prod.fst := List.mem_map.mpr ⟨p, hpL', rfl⟩
        rw [← hq] at this
        exact (List.nodup_cons.mp hnd).1 this
    · rw [if_neg hq]
      rcases List.mem_cons.mp hp with rfl | hpL'
      · exact absurd rfl hq
      · exact ih (List.nodup_cons.mp hnd).2 hpL'

theorem mem_cladesOfSize {δ' α : Type}
    (cc_sets : List (List ℕ × DiscreteProbabilities (List ℕ) δ' α)) (s : ℕ) (k : List ℕ) :
    k ∈ cladesOfSize cc_sets s ↔ k ∈ cc_sets.map Prod.fst ∧ clade_size k = s := by
  rw [cladesOfSize, List.mem_filter]
  simp

theorem cladesOfSize_nodup {δ' α : Type}
    (cc_sets : List (List ℕ × DiscreteProbabilities (List ℕ) δ' α))
    (hnd : (cc_sets.map Prod.fst).Nodup) (s : ℕ) : (cladesOfSize cc_sets s).Nodup :=
  hnd.filter _

theorem clade_size_root (n : ℕ) : clade_size (calculate_root_hash n) = n := by
  rw [clade_size, calculate_root_hash, unpackbits_packbits,
    count_true_append_replicate_false, List.count_replicate]
  simp

theorem dlookup_mem {κ β : Type} [DecidableEq κ] (L : List (κ × β)) (k : κ) (v : β)
    (h : dlookup k L = some v) : (k, v) ∈ L := by
  induction L with
  | nil => simp [dlookup] at h
  | cons q L' ih =>
    rw [dlookup] at h
    by_cases hq : q.1 = k
    · rw [if_pos hq] at h
      obtain ⟨q1, q2⟩ := q
      simp only at hq
      simp only [Option.some.injEq] at h
      rw [← hq, ← h]
      exact List.mem_cons_self _ _
    · rw [if_neg hq] at h
      exact List.mem_cons_of_mem q (ih h)

theorem childFactor_congr (ns₁ ns₂ : List (List ℕ × ℕ)) (child : List ℕ)
    (h : dlookup child ns₁ = dlookup child ns₂) :
    childFactor ns₁ child = childFactor ns₂ child := by
  by_cases h2 : 2 < clade_size child
  · rw [childFactor, childFactor, if_pos h2, if_pos h2, h]
  · rw [childFactor, childFactor, if_neg h2, if_neg h2]

theorem splitSubtrees_congr (ns₁ ns₂ : List (List ℕ × ℕ)) (parent split : List ℕ)
    (h1 : dlookup (elucidate_cc_split parent split).1 ns₁
      = dlookup (elucidate_cc_split parent split).1 ns₂)
    (h2 : dlookup (elucidate_cc_split parent split).2 ns₁
      = dlookup (elucidate_cc_split parent split).2 ns₂) :
    splitSubtrees ns₁ parent split = splitSubtrees ns₂ parent split := by
  rw [splitSubtrees, splitSubtrees,
    childFactor_congr ns₁ ns₂ _ h1, childFactor_congr ns₁ ns₂ _ h2]

theorem parentSubtrees_congr {α : Type} [LinearOrderedField α] (include_zero : Bool)
    (ns₁ ns₂ : List (List ℕ × ℕ)) (parent : List ℕ) :
    ∀ (sps : List (List ℕ × α)),
      (∀ sp ∈ sps, (include_zero || decide (0 < sp.2)) = true →
        dlookup (elucidate_cc_split parent sp.1).1 ns₁
          = dlookup (elucidate_cc_split parent sp.1).1 ns₂ ∧
        dlookup (elucidate_cc_split parent sp.1).2 ns₁
          = dlookup (elucidate_cc_split parent sp.1).2 ns₂) →
      parentSubtrees include_zero ns₁ parent sps
        = parentSubtrees include_zero ns₂ parent sps := by
  intro sps
  induction sps with
  | nil => intro _; rfl
  | cons sp rest ih =>
    intro h
    rw [parentSubtrees, parentSubtrees]
    by_cases hc : (include_zero || decide (0 < sp.2)) = true
    · rw [if_pos hc, if_pos hc]
      obtain ⟨ha, hb⟩ := h sp (List.mem_cons_self sp rest) hc
      rw [splitSubtrees_congr ns₁ ns₂ parent sp.1 ha hb,
        ih (fun q hq hqc => h q (List.mem_cons_of_mem sp hq) hqc)]
    · rw [if_neg hc, if_neg hc]
      exact ih (fun q hq hqc => h q (List.mem_cons_of_mem sp hq) hqc)

theorem parentSubtrees_eq {α : Type} [LinearOrderedField α] (include_zero : Bool)
    (ns : List (List ℕ × ℕ)) (parent : List ℕ) :
    ∀ (sps : List (List ℕ × α)),
      (∀ sp ∈ sps, (include_zero || decide (0 < sp.2)) = true →
        (splitSubtrees ns parent sp.1).isSome) →
      parentSubtrees include_zero ns parent sps
        = some (((sps.filter (fun sp => include_zero || decide (0 < sp.2))).map
            (fun sp => (splitSubtrees ns parent sp.1).getD 0)).sum) := by
  intro sps
  induction sps with
  | nil => intro _; rfl
  | cons sp rest ih =>
    intro h
    rw [parentSubtrees, List.filter_cons]
    by_cases hc : (include_zero || decide (0 < sp.2)) = true
    · rw [if_pos hc, if_pos hc]
      obtain ⟨s, hs⟩ := Option.isSome_iff_exists.mp
        (h sp (List.mem_cons_self sp rest) hc)
      rw [hs, ih (fun q hq hqc => h q (List.mem_cons_of_mem sp hq) hqc)]
      rw [List.map_cons, List.sum_cons, hs]
      rfl
    · rw [if_neg hc, if_neg hc]
      exact ih (fun q hq hqc => h q (List.mem_cons_of_mem sp hq) hqc)

theorem child_ne_of_size (c p : List ℕ) (S : ℕ) (hS3 : 3 ≤ S)
    (hszp : clade_size p = S)
    (h : 2 < clade_size c → clade_size c < S) : c ≠ p := by
  intro he
  subst he
  by_cases h2 : 2 < clade_size c
  · have := h h2
    omega
  · push_neg at h2
    omega

theorem bucketLoop_spec {δ' α : Type} [LinearOrderedField α]
    (cc_sets : List (List ℕ × DiscreteProbabilities (List ℕ) δ' α))
    (include_zero : Bool) (S : ℕ) (hS3 : 3 ≤ S) :
    ∀ (ps : List (List ℕ)) (ns : List (List ℕ × ℕ)),
      ps.Nodup →
      (∀ p ∈ ps, clade_size p = S) →
      (∀ p ∈ ps, (dlookup p cc_sets).isSome) →
      (∀ p ∈ ps, ∀ dp, dlookup p cc_sets = some dp →
        ∀ sp ∈ dp.hashes_array.zip dp.probabilities_array,
          (include_zero || decide (0 < sp.2)) = true →
          (2 < clade_size (elucidate_cc_split p sp.1).1 →
            (dlookup (elucidate_cc_split p sp.1).1 ns).isSome ∧
              clade_size (elucidate_cc_split p sp.1).1 < S) ∧
          (2 < clade_size (elucidate_cc_split p sp.1).2 →
            (dlookup (elucidate_cc_split p sp.1).2 ns).isSome ∧
              clade_size (elucidate_cc_split p sp.1).2 < S)) →
      ∃ ns', bucketLoop cc_sets include_zero ps ns = some ns' ∧
        (∀ k, k ∉ ps → dlookup k ns' = dlookup k ns) ∧
        (∀ p ∈ ps, ∀ dp, dlookup p cc_sets = some dp →
          dlookup p ns' = parentSubtrees include_zero ns p
            (dp.hashes_array.zip dp.probabilities_array)) := by
  intro ps
  induction ps with
  | nil =>
    intro ns _ _ _ _
    exact ⟨ns, rfl, fun k _ => rfl, fun p hp => absurd hp (List.not_mem_nil p)⟩
  | cons p rest ih =>
    intro ns hnd hsz hmem hchild
    have hszp : clade_size p = S := hsz p (List.mem_cons_self p rest)
    obtain ⟨dp, hdp⟩ := Option.isSome_iff_exists.mp
      (hmem p (List.mem_cons_self p rest))
    have hsplits : ∀ sp ∈ dp.hashes_array.zip dp.probabilities_array,
        (include_zero || decide (0 < sp.2)) = true →
        (splitSubtrees ns p sp.1).isSome := by
      intro sp hsp hc
      obtain ⟨hc1, hc2⟩ := hchild p (List.mem_cons_self p rest) dp hdp sp hsp hc
      have hf1 : (childFactor ns (elucidate_cc_split p sp.1).1).isSome := by
        by_cases h2 : 2 < clade_size (elucidate_cc_split p sp.1).1
        · rw [childFactor, if_pos h2]
          exact (hc1 h2).1
        · rw [childFactor, if_neg h2]
          rfl
      have hf2 : (childFactor ns (elucidate_cc_split p sp.1).2).isSome := by
        by_cases h2 : 2 < clade_size (elucidate_cc_split p sp.1).2
        · rw [childFactor, if_pos h2]
          exact (hc2 h2).1
        · rw [childFactor, if_neg h2]
          rfl
      obtain ⟨f1, hf1e⟩ := Option.isSome_iff_exists.mp hf1
      obtain ⟨f2, hf2e⟩ := Option.isSome_iff_exists.mp hf2
      rw [splitSubtrees, hf1e, hf2e]
      rfl
    have hval := parentSubtrees_eq include_zero ns p
      (dp.hashes_array.zip dp.probabilities_array) hsplits
    obtain ⟨np, hnp⟩ : ∃ np, parentSubtrees include_zero ns p
        (dp.hashes_array.zip dp.probabilities_array) = some np := ⟨_, hval⟩
    have hchild1 : ∀ q ∈ rest, ∀ dq, dlookup q cc_sets = some dq →
        ∀ sp ∈ dq.hashes_array.zip dq.probabilities_array,
          (include_zero || decide (0 < sp.2)) = true →
          (2 < clade_size (elucidate_cc_split q sp.1).1 →
            (dlookup (elucidate_cc_split q sp.1).1 (dset ns p np)).isSome ∧
              clade_size (elucidate_cc_split q sp.1).1 < S) ∧
          (2 < clade_size (elucidate_cc_split q sp.1).2 →
            (dlookup (elucidate_cc_split q sp.1).2 (dset ns p np)).isSome ∧
              clade_size (elucidate_cc_split q sp.1).2 < S) := by
      intro q hq dq hdq sp hsp hc
      obtain ⟨hc1, hc2⟩ := hchild q (List.mem_cons_of_mem p hq) dq hdq sp hsp hc
      constructor
      · intro h2
        obtain ⟨hsome, hlt⟩ := hc1 h2
        have hne : (elucidate_cc_split q sp.1).1 ≠ p :=
          child_ne_of_size _ p S hS3 hszp (fun h2' => (hc1 h2').2)
        rw [dlookup_dset_ne _ _ _ _ hne]
        exact ⟨hsome, hlt⟩
      · intro h2
        obtain ⟨hsome, hlt⟩ := hc2 h2
        have hne : (elucidate_cc_split q sp.1).2 ≠ p :=
          child_ne_of_size _ p S hS3 hszp (fun h2' => (hc2 h2').2)
        rw [dlookup_dset_ne _ _ _ _ hne]
        exact ⟨hsome, hlt⟩
    obtain ⟨ns', hrun, hout, hvals⟩ := ih (dset ns p np)
      (List.nodup_cons.mp hnd).2
      (fun q hq => hsz q (List.mem_cons_of_mem p hq))
      (fun q hq => hmem q (List.mem_cons_of_mem p hq))
      hchild1
    refine ⟨ns', ?_, ?_, ?_⟩
    · show bucketLoop cc_sets include_zero (p :: rest) ns = some ns'
      rw [bucketLoop, hdp]
      show (match parentSubtrees include_zero ns p
          (dp.hashes_array.zip dp.probabilities_array) with
        | none => none
        | some np => bucketLoop cc_sets include_zero rest (dset ns p np)) = some ns'
      rw [hnp]
      exact hrun
    · intro k hk
      have hk1 : k ≠ p := fun he => hk (he ▸ List.mem_cons_self p rest)
      have hk2 : k ∉ rest := fun hm => hk (List.mem_cons_of_mem _ hm)
      rw [hout k hk2, dlookup_dset_ne _ _ _ _ hk1]
    · intro q hq dq hdq
      rcases List.mem_cons.mp hq with rfl | hmem2
      · have hnotin : q ∉ rest := (List.nodup_cons.mp hnd).1
        rw [hout q hnotin, dlookup_dset_self]
        rw [hdp] at hdq
        obtain rfl : dp = dq := by
          simpa using hdq
        exact hnp.symm
      · rw [hvals q hmem2 dq hdq]
        refine parentSubtrees_congr include_zero _ _ q _ (fun sp hsp hc => ?_)
        obtain ⟨hc1, hc2⟩ := hchild q (List.mem_cons_of_mem p hmem2) dq hdq sp hsp hc
        have hne1 : (elucidate_cc_split q sp.1).1 ≠ p :=
          child_ne_of_size _ p S hS3 hszp (fun h2' => (hc1 h2').2)
        have hne2 : (elucidate_cc_split q sp.1).2 ≠ p :=
          child_ne_of_size _ p S hS3 hszp (fun h2' => (hc2 h2').2)
        exact ⟨dlookup_dset_ne _ _ _ _ hne1, dlookup_dset_ne _ _ _ _ hne2⟩

/-- The split records (hash, probability) stored for a clade, empty when
the clade is not in the model.  Mirrors the source's paired iteration over
`hashes_array` and `probabilities_array` of `cc_sets[parent_hash]`. -/
def cladeSplits {δ' α : Type} (cc_sets : List (List ℕ × DiscreteProbabilities (List ℕ) δ' α))
    (p : List ℕ) : List (List ℕ × α) :=
  match dlookup p cc_sets with
  | none => []
  | some dp => dp.hashes_array.zip dp.probabilities_array

theorem cladeSplits_eq {δ' α : Type}
    (cc_sets : List (List ℕ × DiscreteProbabilities (List ℕ) δ' α)) (p : List ℕ)
    (dp : DiscreteProbabilities (List ℕ) δ' α) (h : dlookup p cc_sets = some dp) :
    cladeSplits cc_sets p = dp.hashes_array.zip dp.probabilities_array := by
  rw [cladeSplits, h]

theorem splitSubtrees_isSome (ns : List (List ℕ × ℕ)) (p s : List ℕ)
    (h1 : 2 < clade_size (elucidate_cc_split p s).1 →
      (dlookup (elucidate_cc_split p s).1 ns).isSome)
    (h2 : 2 < clade_size (elucidate_cc_split p s).2 →
      (dlookup (elucidate_cc_split p s).2 ns).isSome) :
    (splitSubtrees ns p s).isSome := by
  have hf1 : (childFactor ns (elucidate_cc_split p s).1).isSome := by
    by_cases hgt : 2 < clade_size (elucidate_cc_split p s).1
    · rw [childFactor, if_pos hgt]
      exact h1 hgt
    · rw [childFactor, if_neg hgt]
      rfl
  have hf2 : (childFactor ns (elucidate_cc_split p s).2).isSome := by
    by_cases hgt : 2 < clade_size (elucidate_cc_split p s).2
    · rw [childFactor, if_pos hgt]
      exact h2 hgt
    · rw [childFactor, if_neg hgt]
      rfl
  obtain ⟨f1, hf1e⟩ := Option.isSome_iff_exists.mp hf1
  obtain ⟨f2, hf2e⟩ := Option.isSome_iff_exists.mp hf2
  rw [splitSubtrees, hf1e, hf2e]
  rfl

theorem allBucketsLoop_inv {δ' α : Type} [LinearOrderedField α]
    (cc_sets : List (List ℕ × DiscreteProbabilities (List ℕ) δ' α)) (iz : Bool)
    (hnd : (cc_sets.map Prod.fst).Nodup)
    (hchild : ∀ p ∈ cc_sets.map Prod.fst, ∀ sp ∈ cladeSplits cc_sets p,
      (iz || decide (0 < sp.2)) = true →
      (2 < clade_size (elucidate_cc_split p sp.1).1 →
        (elucidate_cc_split p sp.1).1 ∈ cc_sets.map Prod.fst ∧
        clade_size (elucidate_cc_split p sp.1).1 < clade_size p) ∧
      (2 < clade_size (elucidate_cc_split p sp.1).2 →
        (elucidate_cc_split p sp.1).2 ∈ cc_sets.map Prod.fst ∧
        clade_size (elucidate_cc_split p sp.1).2 < clade_size p)) :
    ∀ (c m : ℕ) (ns : List (List ℕ × ℕ)),
      (∀ k, (dlookup k ns).isSome ↔
        (k ∈ cc_sets.map Prod.fst ∧ 3 ≤ clade_size k ∧ clade_size k ≤ m + 2)) →
      (∀ p, (dlookup p ns).isSome →
        dlookup p ns = parentSubtrees iz ns p (cladeSplits cc_sets p)) →
      ∃ ns', allBucketsLoop cc_sets iz (List.range' m c) ns = some ns' ∧
        (∀ k, (dlookup k ns').isSome ↔
          (k ∈ cc_sets.map Prod.fst ∧ 3 ≤ clade_size k ∧ clade_size k ≤ m + c + 2)) ∧
        (∀ p, (dlookup p ns').isSome →
          dlookup p ns' = parentSubtrees iz ns' p (cladeSplits cc_sets p)) := by
  intro c
  induction c with
  | zero =>
    intro m ns hA hB
    refine ⟨ns, ?_, ?_, hB⟩
    · rw [List.range'_zero]
      rfl
    · intro k
      rw [show m + 0 + 2 = m + 2 by omega]
      exact hA k
  | succ c ih =>
    intro m ns hA hB
    have hchild' : ∀ p ∈ cladesOfSize cc_sets (m + 3),
        ∀ dp, dlookup p cc_sets = some dp →
        ∀ sp ∈ dp.hashes_array.zip dp.probabilities_array,
          (iz || decide (0 < sp.2)) = true →
          (2 < clade_size (elucidate_cc_split p sp.1).1 →
            (dlookup (elucidate_cc_split p sp.1).1 ns).isSome ∧
              clade_size (elucidate_cc_split p sp.1).1 < m + 3) ∧
          (2 < clade_size (elucidate_cc_split p sp.1).2 →
            (dlookup (elucidate_cc_split p sp.1).2 ns).isSome ∧
              clade_size (elucidate_cc_split p sp.1).2 < m + 3) := by
      intro p hp dp hdp sp hsp hc
      obtain ⟨hpk, hps⟩ := (mem_cladesOfSize cc_sets (m + 3) p).mp hp
      have hcs := cladeSplits_eq cc_sets p dp hdp
      have hg := hchild p hpk sp (by rw [hcs]; exact hsp) hc
      constructor
      · intro h2
        obtain ⟨hmemc, hlt⟩ := hg.1 h2
        rw [hps] at hlt
        exact ⟨(hA _).mpr ⟨hmemc, by omega, by omega⟩, hlt⟩
      · intro h2
        obtain ⟨hmemc, hlt⟩ := hg.2 h2
        rw [hps] at hlt
        exact ⟨(hA _).mpr ⟨hmemc, by omega, by omega⟩, hlt⟩
    obtain ⟨ns₁, hrun₁, hout₁, hvals₁⟩ := bucketLoop_spec cc_sets iz (m + 3)
      (by omega) (cladesOfSize cc_sets (m + 3)) ns
      (cladesOfSize_nodup cc_sets hnd (m + 3))
      (fun p hp => ((mem_cladesOfSize cc_sets (m + 3) p).mp hp).2)
      (fun p hp => dlookup_isSome_of_mem_keys cc_sets p
        ((mem_cladesOfSize cc_sets (m + 3) p).mp hp).1)
      hchild'
    have hA₁ : ∀ k, (dlookup k ns₁).isSome ↔
        (k ∈ cc_sets.map Prod.fst ∧ 3 ≤ clade_size k ∧ clade_size k ≤ m + 3) := by
      intro k
      by_cases hkb : k ∈ cladesOfSize cc_sets (m + 3)
      · obtain ⟨hkk, hks⟩ := (mem_cladesOfSize cc_sets (m + 3) k).mp hkb
        constructor
        · intro _
          exact ⟨hkk, by omega, by omega⟩
        · intro _
          obtain ⟨dp, hdp⟩ := Option.isSome_iff_exists.mp
            (dlookup_isSome_of_mem_keys cc_sets k hkk)
          rw [hvals₁ k hkb dp hdp]
          rw [parentSubtrees_eq iz ns k _ (fun sp hsp hc => ?_)]
          · rfl
          · refine splitSubtrees_isSome ns k sp.1 ?_ ?_
            · intro h2
              exact ((hchild' k hkb dp hdp sp hsp hc).1 h2).1
            · intro h2
              exact ((hchild' k hkb dp hdp sp hsp hc).2 h2).1
      · rw [hout₁ k hkb, hA k]
        constructor
        · rintro ⟨hkk, h3, h2⟩
          exact ⟨hkk, h3, by omega⟩
        · rintro ⟨hkk, h3, h2⟩
          refine ⟨hkk, h3, ?_⟩
          by_cases hks : clade_size k = m + 3
          · exact absurd ((mem_cladesOfSize cc_sets (m + 3) k).mpr ⟨hkk, hks⟩) hkb
          · omega
    have hB₁ : ∀ p, (dlookup p ns₁).isSome →
        dlookup p ns₁ = parentSubtrees iz ns₁ p (cladeSplits cc_sets p) := by
      intro p hps
      obtain ⟨hpk, hp3, hple⟩ := (hA₁ p).mp hps
      obtain ⟨dp, hdp⟩ := Option.isSome_iff_exists.mp
        (dlookup_isSome_of_mem_keys cc_sets p hpk)
      have hcs := cladeSplits_eq cc_sets p dp hdp
      have hnotb : ∀ sp ∈ cladeSplits cc_sets p, (iz || decide (0 < sp.2)) = true →
          (elucidate_cc_split p sp.1).1 ∉ cladesOfSize cc_sets (m + 3) ∧
          (elucidate_cc_split p sp.1).2 ∉ cladesOfSize cc_sets (m + 3) := by
        intro sp hsp hc
        have hg := hchild p hpk sp hsp hc
        constructor
        · intro hmb
          have hsz := ((mem_cladesOfSize cc_sets (m + 3) _).mp hmb).2
          have h2 : 2 < clade_size (elucidate_cc_split p sp.1).1 := by omega
          have := (hg.1 h2).2
          omega
        · intro hmb
          have hsz := ((mem_cladesOfSize cc_sets (m + 3) _).mp hmb).2
          have h2 : 2 < clade_size (elucidate_cc_split p sp.1).2 := by omega
          have := (hg.2 h2).2
          omega
      have hagree : ∀ sp ∈ cladeSplits cc_sets p, (iz || decide (0 < sp.2)) = true →
          dlookup (elucidate_cc_split p sp.1).1 ns
            = dlookup (elucidate_cc_split p sp.1).1 ns₁ ∧
          dlookup (elucidate_cc_split p sp.1).2 ns
            = dlookup (elucidate_cc_split p sp.1).2 ns₁ := by
        intro sp hsp hc
        obtain ⟨hn1, hn2⟩ := hnotb sp hsp hc
        exact ⟨(hout₁ _ hn1).symm, (hout₁ _ hn2).symm⟩
      by_cases hpb : p ∈ cladesOfSize cc_sets (m + 3)
      · rw [hvals₁ p hpb dp hdp, ← hcs]
        exact parentSubtrees_congr iz ns ns₁ p _ hagree
      · rw [hout₁ p hpb]
        have hpsns : (dlookup p ns).isSome := by
          rw [← hout₁ p hpb]
          exact hps
        rw [hB p hpsns]
        exact parentSubtrees_congr iz ns ns₁ p _ hagree
    obtain ⟨ns', hrun', hA', hB'⟩ := ih (m + 1) ns₁
      (fun k => by
        rw [show m + 1 + 2 = m + 3 by omega]
        exact hA₁ k)
      hB₁
    refine ⟨ns', ?_, ?_, hB'⟩
    · rw [List.range'_succ m c 1]
      show allBucketsLoop cc_sets iz (m :: List.range' (m + 1) c) ns = some ns'
      rw [allBucketsLoop, hrun₁]
      exact hrun'
    · intro k
      rw [show m + (c + 1) + 2 = m + 1 + c + 2 by omega]
      exact hA' k

/-- **C7.** `n_derived_topologies` runs a dynamic program over the model's
clades in increasing size order: every clade of the model with between 3
and `n_taxa` taxa receives a subtree count, that count equals the sum over
the clade's splits (zero-probability splits skipped unless
`include_zero_probability` is set) of the product of the child factors
(the child's stored count when it has more than 2 taxa, `1` otherwise),
and the returned value is the count stored for the root clade.  The
hypotheses state that the model is well formed: clade hashes are distinct,
no clade exceeds `n_taxa` taxa (the source indexes a bucket list of length
`n_taxa - 2` by size), the root clade is in the model, and every counted
split's child with more than 2 taxa is itself a model clade with strictly
fewer taxa than its parent. -/
theorem claim_C7_topology_count_dp {δ' α : Type} [LinearOrderedField α]
    (cc_sets : List (List ℕ × DiscreteProbabilities (List ℕ) δ' α))
    (n_taxa : ℕ) (include_zero_probability : Bool)
    (hnd : (cc_sets.map Prod.fst).Nodup)
    (hn3 : 3 ≤ n_taxa)
    (hsz : ∀ k ∈ cc_sets.map Prod.fst, clade_size k ≤ n_taxa)
    (hroot : calculate_root_hash n_taxa ∈ cc_sets.map Prod.fst)
    (hchild : ∀ p ∈ cc_sets.map Prod.fst, ∀ sp ∈ cladeSplits cc_sets p,
      (include_zero_probability || decide (0 < sp.2)) = true →
      (2 < clade_size (elucidate_cc_split p sp.1).1 →
        (elucidate_cc_split p sp.1).1 ∈ cc_sets.map Prod.fst ∧
        clade_size (elucidate_cc_split p sp.1).1 < clade_size p) ∧
      (2 < clade_size (elucidate_cc_split p sp.1).2 →
        (elucidate_cc_split p sp.1).2 ∈ cc_sets.map Prod.fst ∧
        clade_size (elucidate_cc_split p sp.1).2 < clade_size p)) :
    ∃ n_subtrees,
      allBucketsLoop cc_sets include_zero_probability (List.range (n_taxa - 2)) []
        = some n_subtrees ∧
      (∀ p, (dlookup p n_subtrees).isSome ↔
        (p ∈ cc_sets.map Prod.fst ∧ 3 ≤ clade_size p ∧ clade_size p ≤ n_taxa)) ∧
      (∀ p, (dlookup p n_subtrees).isSome →
        dlookup p n_subtrees = parentSubtrees include_zero_probability n_subtrees p
          (cladeSplits cc_sets p)) ∧
      n_derived_topologies cc_sets n_taxa include_zero_probability
        = dlookup (calculate_root_hash n_taxa) n_subtrees ∧
      (n_derived_topologies cc_sets n_taxa include_zero_probability).isSome := by
  have h0A : ∀ k, (dlookup k ([] : List (List ℕ × ℕ))).isSome ↔
      (k ∈ cc_sets.map Prod.fst ∧ 3 ≤ clade_size k ∧ clade_size k ≤ 0 + 2) := by
    intro k
    constructor
    · intro h
      simp [dlookup] at h
    · rintro ⟨_, h3, h2⟩
      omega
  have h0B : ∀ p, (dlookup p ([] : List (List ℕ × ℕ))).isSome →
      dlookup p ([] : List (List ℕ × ℕ))
        = parentSubtrees include_zero_probability [] p (cladeSplits cc_sets p) := by
    intro p h
    simp [dlookup] at h
  obtain ⟨ns, hrun, hA, hB⟩ := allBucketsLoop_inv cc_sets include_zero_probability
    hnd hchild (n_taxa - 2) 0 [] h0A h0B
  have hA' : ∀ p, (dlookup p ns).isSome ↔
      (p ∈ cc_sets.map Prod.fst ∧ 3 ≤ clade_size p ∧ clade_size p ≤ n_taxa) := by
    intro p
    have := hA p
    rwa [show 0 + (n_taxa - 2) + 2 = n_taxa by omega] at this
  have hrun' : allBucketsLoop cc_sets include_zero_probability
      (List.range (n_taxa - 2)) [] = some ns := by
    rw [List.range_eq_range']
    exact hrun
  have hret : n_derived_topologies cc_sets n_taxa include_zero_probability
      = dlookup (calculate_root_hash n_taxa) ns := by
    rw [n_derived_topologies, hrun']
  refine ⟨ns, hrun', hA', hB, hret, ?_⟩
  rw [hret]
  refine (hA' _).mpr ⟨hroot, ?_, ?_⟩
  · rw [clade_size_root]
    omega
  · rw [clade_size_root]

/-- A one-clade model over 3 taxa for exercising the topology-count DP:
the root clade `[224]` (taxa 1,2,3) with a single split `[128]` of
probability 1. -/
def exampleDpSets : List (List ℕ × DiscreteProbabilities (List ℕ) ℕ ℚ) :=
  [([224], ⟨[[128]], [0], [([128], 1)], [1]⟩)]

/-! ## Deriving clade probabilities (claim C5)

`reverse_cc_probabilities` (source lines 603-620) inverts the
conditional-clade model into a map from child clade to a map from parent
clade to the conditional probability of the split of the parent that
produced the child.  `CladeProbabilities.derive_clade_probabilities`
(source lines 231-261) sets the root clade's probability to `1.0` and
then walks the observed clades from largest to smallest taxon count
(buckets indexed `n_taxa - n_clade_taxa`, loop over `range(1, n_taxa - 1)`),
assigning each clade the sum over its reverse-map parents of the
conditional probability times the parent's probability. -/

/-- One insertion `reverse_ccp[child][parent] = cc_probability`, creating
the inner mapping when `child` is new. -/
def reverseCcpInsert {α : Type} (rev : List (List ℕ × List (List ℕ × α)))
    (child parent : List ℕ) (cp : α) : List (List ℕ × List (List ℕ × α)) :=
  match dlookup child rev with
  | some m => dset rev child (dset m parent cp)
  | none => dset rev child [(parent, cp)]

/-- The source's insertions for one (parent, split) record: child 1
first, then child 2. -/
def reverseCcpRecord {α : Type} (rev : List (List ℕ × List (List ℕ × α)))
    (parent : List ℕ) (sp : List ℕ × α) : List (List ℕ × List (List ℕ × α)) :=
  reverseCcpInsert
    (reverseCcpInsert rev (elucidate_cc_split parent sp.1).1 parent sp.2)
    (elucidate_cc_split parent sp.1).2 parent sp.2

/-- `reverse_cc_probabilities`: fold every (parent, split) record of the
model into the reverse map. -/
def reverse_cc_probabilities {δ' α : Type}
    (cc_sets : List (List ℕ × DiscreteProbabilities (List ℕ) δ' α)) :
    List (List ℕ × List (List ℕ × α)) :=
  cc_sets.foldl (fun rev pd => pd.2.probabilities.foldl
    (fun rev2 sp => reverseCcpRecord rev2 pd.1 sp) rev) []

/-- The inner accumulation of `derive_clade_probabilities`: sum
`conditional_parents[parent] * self.probabilities[parent]` over the
parents recorded for a clade (`KeyError` when a parent has no stored
probability). -/
def cladeProbSum {α : Type} [LinearOrderedField α] (probs : List (List ℕ × α)) :
    List (List ℕ × α) → Option α
  | [] => some 0
  | pr :: rest =>
    match dlookup pr.1 probs with
    | none => none
    | some pp => (cladeProbSum probs rest).map (fun acc => pr.2 * pp + acc)

/-- One bucket of `derive_clade_probabilities`: assign every clade of the
current size its summed path probability (`KeyError` when the clade is
missing from the reverse map). -/
def deriveBucketLoop {α : Type} [LinearOrderedField α]
    (rev : List (List ℕ × List (List ℕ × α))) :
    List (List ℕ) → List (List ℕ × α) → Option (List (List ℕ × α))
  | [], probs => some probs
  | c :: rest, probs =>
    match dlookup c rev with
    | none => none
    | some parents =>
      match cladeProbSum probs parents with
      | none => none
      | some cp => deriveBucketLoop rev rest (dset probs c cp)

/-- Clades stored with a given taxon count in the table's `data_array`
(the source's `clades_by_size` bucket for `n_taxa - size`). -/
def cladesOfDataSize {α : Type} (table : DiscreteProbabilities (List ℕ) ℕ α) (s : ℕ) :
    List (List ℕ) :=
  ((table.hashes_array.zip table.data_array).filter (fun hd => hd.2 = s)).map Prod.fst

/-- The outer size loop of `derive_clade_probabilities`. -/
def deriveAllLoop {α : Type} [LinearOrderedField α]
    (rev : List (List ℕ × List (List ℕ × α)))
    (table : DiscreteProbabilities (List ℕ) ℕ α) (n_taxa : ℕ) :
    List ℕ → List (List ℕ × α) → Option (List (List ℕ × α))
  | [], probs => some probs
  | i :: rest, probs =>
    match deriveBucketLoop rev (cladesOfDataSize table (n_taxa - i)) probs with
    | none => none
    | some probs' => deriveAllLoop rev table n_taxa rest probs'

/-- `CladeProbabilities.derive_clade_probabilities`: the final
`self.probabilities` mapping (a raised `KeyError` modelled as `none`). -/
def derive_clade_probabilities {δ' α : Type} [LinearOrderedField α]
    (table : DiscreteProbabilities (List ℕ) ℕ α)
    (cc_sets : List (List ℕ × DiscreteProbabilities (List ℕ) δ' α)) (n_taxa : ℕ) :
    Option (List (List ℕ × α)) :=
  deriveAllLoop (reverse_cc_probabilities cc_sets) table n_taxa
    (List.range' 1 (n_taxa - 2))
    (dset table.probabilities (calculate_root_hash n_taxa) 1)

theorem cladeProbSum_eq {α : Type} [LinearOrderedField α] (probs : List (List ℕ × α)) :
    ∀ parents : List (List ℕ × α),
      (∀ pr ∈ parents, (dlookup pr.1 probs).isSome) →
      cladeProbSum probs parents
        = some ((parents.map (fun pr => pr.2 * (dlookup pr.1 probs).getD 0)).sum) := by
  intro parents
  induction parents with
  | nil => intro _; rfl
  | cons pr rest ih =>
    intro h
    obtain ⟨pp, hpp⟩ := Option.isSome_iff_exists.mp (h pr (List.mem_cons_self pr rest))
    rw [cladeProbSum, hpp, ih (fun q hq => h q (List.mem_cons_of_mem pr hq))]
    rw [List.map_cons, List.sum_cons, hpp]
    rfl

theorem deriveBucketLoop_spec {α : Type} [LinearOrderedField α]
    (rev : List (List ℕ × List (List ℕ × α))) :
    ∀ (ps : List (List ℕ)) (probs : List (List ℕ × α)),
      ps.Nodup →
      (∀ c ∈ ps, ∃ parents, dlookup c rev = some parents ∧
        ∀ pr ∈ parents, (dlookup pr.1 probs).isSome ∧ pr.1 ∉ ps) →
      ∃ probs', deriveBucketLoop rev ps probs = some probs' ∧
        (∀ k, k ∉ ps → dlookup k probs' = dlookup k probs) ∧
        (∀ c ∈ ps, ∀ parents, dlookup c rev = some parents →
          dlookup c probs'
            = some ((parents.map (fun pr => pr.2 * (dlookup pr.1 probs).getD 0)).sum)) := by
  intro ps
  induction ps with
  | nil =>
    intro probs _ _
    exact ⟨probs, rfl, fun k _ => rfl, fun c hc => absurd hc (List.not_mem_nil c)⟩
  | cons c rest ih =>
    intro probs hnd hpar
    obtain ⟨parents, hrev, hlk⟩ := hpar c (List.mem_cons_self c rest)
    obtain ⟨v, hv⟩ : ∃ v,
        ((parents.map (fun pr => pr.2 * (dlookup pr.1 probs).getD 0)).sum) = v :=
      ⟨_, rfl⟩
    have hsum : cladeProbSum probs parents = some v := by
      rw [cladeProbSum_eq probs parents (fun pr hpr => (hlk pr hpr).1), hv]
    have hpar' : ∀ q ∈ rest, ∃ parents', dlookup q rev = some parents' ∧
        ∀ pr ∈ parents', (dlookup pr.1 (dset probs c v)).isSome ∧ pr.1 ∉ rest := by
      intro q hq
      obtain ⟨parents', hrev', hlk'⟩ := hpar q (List.mem_cons_of_mem c hq)
      refine ⟨parents', hrev', fun pr hpr => ?_⟩
      obtain ⟨hsome, hnm⟩ := hlk' pr hpr
      have hne : pr.1 ≠ c := fun he => hnm (he ▸ List.mem_cons_self c rest)
      rw [dlookup_dset_ne _ _ _ _ hne]
      exact ⟨hsome, fun hm => hnm (List.mem_cons_of_mem c hm)⟩
    obtain ⟨probs', hrun, hout, hvals⟩ :=
      ih (dset probs c v) (List.nodup_cons.mp hnd).2 hpar'
    refine ⟨probs', ?_, ?_, ?_⟩
    · show deriveBucketLoop rev (c :: rest) probs = some probs'
      rw [deriveBucketLoop, hrev]
      show (match cladeProbSum probs parents with
        | none => none
        | some cp => deriveBucketLoop rev rest (dset probs c cp)) = some probs'
      rw [hsum]
      exact hrun
    · intro k hk
      have hk1 : k ≠ c := fun he => hk (he ▸ List.mem_cons_self c rest)
      have hk2 : k ∉ rest := fun hm => hk (List.mem_cons_of_mem _ hm)
      rw [hout k hk2, dlookup_dset_ne _ _ _ _ hk1]
    · intro q hq parents' hrev'
      rcases List.mem_cons.mp hq with rfl | hmem2
      · have hnotin : q ∉ rest := (List.nodup_cons.mp hnd).1
        rw [hout q hnotin, dlookup_dset_self]
        rw [hrev] at hrev'
        obtain rfl : parents = parents' := by simpa using hrev'
        rw [hv]
      · rw [hvals q hmem2 parents' hrev']
        obtain ⟨ps'', hrev'', hlk''⟩ := hpar q (List.mem_cons_of_mem c hmem2)
        rw [hrev'] at hrev''
        have heq : parents' = ps'' := by simpa using hrev''
        subst heq
        have hmap : parents'.map (fun pr => pr.2 * (dlookup pr.1 (dset probs c v)).getD 0)
            = parents'.map (fun pr => pr.2 * (dlookup pr.1 probs).getD 0) :=
          List.map_congr_left (fun pr hpr => by
            have hne : pr.1 ≠ c :=
              fun he => (hlk'' pr hpr).2 (he ▸ List.mem_cons_self c rest)
            rw [dlookup_dset_ne _ _ _ _ hne])
        rw [hmap]

theorem mem_cladesOfDataSize {α : Type} (table : DiscreteProbabilities (List ℕ) ℕ α)
    (s : ℕ) (c : List ℕ) :
    c ∈ cladesOfDataSize table s ↔
      ∃ hd ∈ table.hashes_array.zip table.data_array, hd.1 = c ∧ hd.2 = s := by
  simp only [cladesOfDataSize, List.mem_map, List.mem_filter, decide_eq_true_eq]
  constructor
  · rintro ⟨hd, ⟨hmem, hs⟩, rfl⟩
    exact ⟨hd, hmem, rfl, hs⟩
  · rintro ⟨hd, hmem, rfl, hs⟩
    exact ⟨hd, ⟨hmem, hs⟩, rfl⟩

theorem cladesOfDataSize_nodup {α : Type} (table : DiscreteProbabilities (List ℕ) ℕ α)
    (hndz : ((table.hashes_array.zip table.data_array).map Prod.fst).Nodup) (s : ℕ) :
    (cladesOfDataSize table s).Nodup :=
  hndz.sublist
    ((List.filter_sublist (table.hashes_array.zip table.data_array)).map Prod.fst)

theorem assoc_val_unique {κ β : Type} [DecidableEq κ] (L : List (κ × β))
    (hnd : (L.map Prod.fst).Nodup) {a b : κ × β} (ha : a ∈ L) (hb : b ∈ L)
    (hk : a.1 = b.1) : a.2 = b.2 := by
  have h1 := dlookup_of_mem_nodup L hnd a ha
  have h2 := dlookup_of_mem_nodup L hnd b hb
  rw [hk] at h1
  rw [h1] at h2
  simpa using h2

theorem deriveAllLoop_inv {α : Type} [LinearOrderedField α]
    (rev : List (List ℕ × List (List ℕ × α)))
    (table : DiscreteProbabilities (List ℕ) ℕ α) (n_taxa : ℕ)
    (hndz : ((table.hashes_array.zip table.data_array).map Prod.fst).Nodup)
    (hacc : ∀ hd ∈ table.hashes_array.zip table.data_array,
      2 ≤ hd.2 ∧ hd.2 ≤ n_taxa ∧ clade_size hd.1 = hd.2)
    (hparents : ∀ hd ∈ table.hashes_array.zip table.data_array, hd.2 < n_taxa →
      ∃ parents, dlookup hd.1 rev = some parents ∧
        ∀ pr ∈ parents, pr.1 = calculate_root_hash n_taxa ∨
          ∃ hd' ∈ table.hashes_array.zip table.data_array,
            hd'.1 = pr.1 ∧ hd.2 < hd'.2) :
    ∀ (c m : ℕ) (probs : List (List ℕ × α)),
      m + c ≤ n_taxa - 2 →
      (∀ k, (dlookup k probs).isSome ↔
        (k ∈ (table.hashes_array.zip table.data_array).map Prod.fst ∨
          k = calculate_root_hash n_taxa)) →
      dlookup (calculate_root_hash n_taxa) probs = some 1 →
      (∀ hd ∈ table.hashes_array.zip table.data_array,
        1 ≤ n_taxa - hd.2 → n_taxa - hd.2 ≤ m →
        ∃ parents, dlookup hd.1 rev = some parents ∧
          dlookup hd.1 probs
            = some ((parents.map (fun pr => pr.2 * (dlookup pr.1 probs).getD 0)).sum)) →
      ∃ probs',
        deriveAllLoop rev table n_taxa (List.range' (m + 1) c) probs = some probs' ∧
        (∀ k, (dlookup k probs').isSome ↔
          (k ∈ (table.hashes_array.zip table.data_array).map Prod.fst ∨
            k = calculate_root_hash n_taxa)) ∧
        dlookup (calculate_root_hash n_taxa) probs' = some 1 ∧
        (∀ hd ∈ table.hashes_array.zip table.data_array,
          1 ≤ n_taxa - hd.2 → n_taxa - hd.2 ≤ m + c →
          ∃ parents, dlookup hd.1 rev = some parents ∧
            dlookup hd.1 probs'
              = some ((parents.map
                  (fun pr => pr.2 * (dlookup pr.1 probs').getD 0)).sum)) := by
  intro c
  induction c with
  | zero =>
    intro m probs hmc hA hroot hC
    refine ⟨probs, ?_, hA, hroot, ?_⟩
    · rw [List.range'_zero]
      rfl
    · intro hd hmem h1 h2
      rw [Nat.add_zero] at h2
      exact hC hd hmem h1 h2
  | succ c ih =>
    intro m probs hmc hA hroot hC
    have hm2 : m + 1 ≤ n_taxa - 2 := by omega
    have hroot_not : ∀ s, s < n_taxa →
        calculate_root_hash n_taxa ∉ cladesOfDataSize table s := by
      intro s hs hmem
      obtain ⟨hd, hdm, hd1, hd2⟩ := (mem_cladesOfDataSize table s _).mp hmem
      have := (hacc hd hdm).2.2
      rw [hd1, clade_size_root] at this
      omega
    have hdata_unique : ∀ hd ∈ table.hashes_array.zip table.data_array,
        ∀ s, hd.2 ≠ s → hd.1 ∉ cladesOfDataSize table s := by
      intro hd hdm s hne hmem
      obtain ⟨hd', hdm', hd1, hd2⟩ := (mem_cladesOfDataSize table s _).mp hmem
      have := assoc_val_unique _ hndz hdm' hdm hd1
      omega
    have hbucket : ∀ q ∈ cladesOfDataSize table (n_taxa - (m + 1)),
        ∃ parents, dlookup q rev = some parents ∧
          ∀ pr ∈ parents, (dlookup pr.1 probs).isSome ∧
            pr.1 ∉ cladesOfDataSize table (n_taxa - (m + 1)) := by
      intro q hq
      obtain ⟨hd, hdm, hd1, hd2⟩ :=
        (mem_cladesOfDataSize table (n_taxa - (m + 1)) q).mp hq
      have hslt : hd.2 < n_taxa := by
        have := (hacc hd hdm).1
        omega
      obtain ⟨parents, hrevq, hpr⟩ := hparents hd hdm hslt
      refine ⟨parents, hd1 ▸ hrevq, fun pr hprm => ?_⟩
      rcases hpr pr hprm with hr | ⟨hd', hdm', hd'1, hd'2⟩
      · constructor
        · exact (hA pr.1).mpr (Or.inr hr)
        · rw [hr]
          exact hroot_not _ (by omega)
      · constructor
        · exact (hA pr.1).mpr (Or.inl (hd'1 ▸ List.mem_map_of_mem Prod.fst hdm'))
        · rw [← hd'1]
          exact hdata_unique hd' hdm' _ (by omega)
    obtain ⟨probs₁, hrun₁, hout₁, hvals₁⟩ :=
      deriveBucketLoop_spec rev (cladesOfDataSize table (n_taxa - (m + 1))) probs
        (cladesOfDataSize_nodup table hndz _) hbucket
    have hA₁ : ∀ k, (dlookup k probs₁).isSome ↔
        (k ∈ (table.hashes_array.zip table.data_array).map Prod.fst ∨
          k = calculate_root_hash n_taxa) := by
      intro k
      by_cases hkb : k ∈ cladesOfDataSize table (n_taxa - (m + 1))
      · obtain ⟨hd, hdm, hd1, hd2⟩ := (mem_cladesOfDataSize table _ k).mp hkb
        constructor
        · intro _
          exact Or.inl (hd1 ▸ List.mem_map_of_mem Prod.fst hdm)
        · intro _
          obtain ⟨parents, hrevq, _⟩ := hbucket k hkb
          rw [hvals₁ k hkb parents hrevq]
          rfl
      · rw [hout₁ k hkb]
        exact hA k
    have hroot₁ : dlookup (calculate_root_hash n_taxa) probs₁ = some 1 := by
      rw [hout₁ _ (hroot_not _ (by omega))]
      exact hroot
    have hC₁ : ∀ hd ∈ table.hashes_array.zip table.data_array,
        1 ≤ n_taxa - hd.2 → n_taxa - hd.2 ≤ m + 1 →
        ∃ parents, dlookup hd.1 rev = some parents ∧
          dlookup hd.1 probs₁
            = some ((parents.map
                (fun pr => pr.2 * (dlookup pr.1 probs₁).getD 0)).sum) := by
      intro hd hdm h1 h2
      obtain ⟨h2le, h2len, hszacc⟩ := hacc hd hdm
      have hslt : hd.2 < n_taxa := by omega
      obtain ⟨parents, hrevq, hpr⟩ := hparents hd hdm hslt
      have hparents_out : ∀ pr ∈ parents,
          dlookup pr.1 probs₁ = dlookup pr.1 probs := by
        intro pr hprm
        rcases hpr pr hprm with hr | ⟨hd', hdm', hd'1, hd'2⟩
        · rw [hr]
          exact hout₁ _ (hroot_not _ (by omega))
        · rw [← hd'1]
          refine hout₁ _ (hdata_unique hd' hdm' _ ?_)
          omega
      have hmapeq : parents.map (fun pr => pr.2 * (dlookup pr.1 probs₁).getD 0)
          = parents.map (fun pr => pr.2 * (dlookup pr.1 probs).getD 0) :=
        List.map_congr_left (fun pr hprm => by rw [hparents_out pr hprm])
      by_cases hcur : n_taxa - hd.2 = m + 1
      · have hmem : hd.1 ∈ cladesOfDataSize table (n_taxa - (m + 1)) := by
          refine (mem_cladesOfDataSize table _ hd.1).mpr ⟨hd, hdm, rfl, ?_⟩
          omega
        refine ⟨parents, hrevq, ?_⟩
        rw [hvals₁ hd.1 hmem parents hrevq, hmapeq]
      · have hold : n_taxa - hd.2 ≤ m := by omega
        obtain ⟨parents0, hrevq0, hval0⟩ := hC hd hdm h1 hold
        rw [hrevq] at hrevq0
        have heq : parents = parents0 := by simpa using hrevq0
        subst heq
        have hnotb : hd.1 ∉ cladesOfDataSize table (n_taxa - (m + 1)) := by
          refine hdata_unique hd hdm _ ?_
          omega
        refine ⟨parents, hrevq, ?_⟩
        rw [hout₁ hd.1 hnotb, hval0, hmapeq]
    obtain ⟨probs', hrun', hA', hroot', hC'⟩ :=
      ih (m + 1) probs₁ (by omega) hA₁ hroot₁ hC₁
    refine ⟨probs', ?_, hA', hroot', ?_⟩
    · rw [List.range'_succ (m + 1) c 1]
      show deriveAllLoop rev table n_taxa
        ((m + 1) :: List.range' (m + 1 + 1) c) probs = some probs'
      rw [deriveAllLoop, hrun₁]
      exact hrun'
    · intro hd hdm h1 h2
      refine hC' hd hdm h1 ?_
      omega

/-- The double lookup `reverse_ccp[child][parent]`. -/
def revLookup2 {α : Type} (rev : List (List ℕ × List (List ℕ × α)))
    (child parent : List ℕ) : Option α :=
  (dlookup child rev).bind (dlookup parent)

/-- The reverse-map insertions of the model, flattened in source order:
for each (parent, split) record, the child-1 insertion then the child-2
insertion. -/
def ccTriples {δ' α : Type}
    (cc_sets : List (List ℕ × DiscreteProbabilities (List ℕ) δ' α)) :
    List (List ℕ × (List ℕ × α)) :=
  cc_sets.flatMap (fun pd => pd.2.probabilities.flatMap (fun sp =>
    [((elucidate_cc_split pd.1 sp.1).1, (pd.1, sp.2)),
     ((elucidate_cc_split pd.1 sp.1).2, (pd.1, sp.2))]))

theorem foldl_flatMap {A B C : Type} (f : C → B → C) (g : A → List B) :
    ∀ (l : List A) (i : C),
      (l.flatMap g).foldl f i = l.foldl (fun acc a => (g a).foldl f acc) i := by
  intro l
  induction l with
  | nil => intro i; rfl
  | cons a rest ih =>
    intro i
    rw [List.flatMap_cons, List.foldl_append, List.foldl_cons, ih]

theorem reverse_cc_eq_triples {δ' α : Type}
    (cc_sets : List (List ℕ × DiscreteProbabilities (List ℕ) δ' α)) :
    reverse_cc_probabilities cc_sets = (ccTriples cc_sets).foldl
      (fun rev t => reverseCcpInsert rev t.1 t.2.1 t.2.2) [] := by
  rw [reverse_cc_probabilities, ccTriples, foldl_flatMap]
  refine List.foldl_ext _ _ [] (fun rev pd _ => ?_)
  rw [foldl_flatMap]
  exact List.foldl_ext _ _ rev (fun r sp _ => rfl)

theorem revLookup2_insert_self {α : Type} (rev : List (List ℕ × List (List ℕ × α)))
    (c p : List ℕ) (cp : α) :
    revLookup2 (reverseCcpInsert rev c p cp) c p = some cp := by
  rw [reverseCcpInsert]
  cases hm : dlookup c rev with
  | some m =>
    rw [revLookup2, dlookup_dset_self]
    show dlookup p (dset m p cp) = some cp
    exact dlookup_dset_self m p cp
  | none =>
    rw [revLookup2, dlookup_dset_self]
    show dlookup p [(p, cp)] = some cp
    simp [dlookup]

theorem revLookup2_insert_ne {α : Type} (rev : List (List ℕ × List (List ℕ × α)))
    (c p : List ℕ) (cp : α) (c' p' : List ℕ) (h : ¬(c' = c ∧ p' = p)) :
    revLookup2 (reverseCcpInsert rev c p cp) c' p' = revLookup2 rev c' p' := by
  rw [reverseCcpInsert]
  by_cases hc : c' = c
  · subst hc
    have hp : p' ≠ p := fun he => h ⟨rfl, he⟩
    cases hm : dlookup c' rev with
    | some m =>
      rw [revLookup2, revLookup2, dlookup_dset_self, hm]
      show dlookup p' (dset m p cp) = dlookup p' m
      exact dlookup_dset_ne m p p' cp hp
    | none =>
      rw [revLookup2, revLookup2, dlookup_dset_self, hm]
      show dlookup p' [(p, cp)] = none
      rw [dlookup, if_neg (fun he => hp he.symm)]
      rfl
  · cases hm : dlookup c rev with
    | some m =>
      rw [revLookup2, revLookup2, dlookup_dset_ne _ _ _ _ hc]
    | none =>
      rw [revLookup2, revLookup2, dlookup_dset_ne _ _ _ _ hc]

theorem revLookup2_foldl_ne {α : Type} (c' p' : List ℕ) :
    ∀ (ts : List (List ℕ × (List ℕ × α))) (rev : List (List ℕ × List (List ℕ × α))),
      (∀ t ∈ ts, ¬(t.1 = c' ∧ t.2.1 = p')) →
      revLookup2 (ts.foldl (fun r t => reverseCcpInsert r t.1 t.2.1 t.2.2) rev) c' p'
        = revLookup2 rev c' p' := by
  intro ts
  induction ts with
  | nil => intro rev _; rfl
  | cons t rest ih =>
    intro rev h
    rw [List.foldl_cons, ih _ (fun u hu => h u (List.mem_cons_of_mem t hu)),
      revLookup2_insert_ne]
    intro ⟨h1, h2⟩
    exact h t (List.mem_cons_self t rest) ⟨h1.symm, h2.symm⟩

theorem revLookup2_foldl_match {α : Type} (c' p' : List ℕ) (cp : α) :
    ∀ (ts : List (List ℕ × (List ℕ × α))) (rev : List (List ℕ × List (List ℕ × α))),
      (∀ t ∈ ts, t.1 = c' → t.2.1 = p' → t.2.2 = cp) →
      ((∃ t ∈ ts, t.1 = c' ∧ t.2.1 = p') ∨ revLookup2 rev c' p' = some cp) →
      revLookup2 (ts.foldl (fun r t => reverseCcpInsert r t.1 t.2.1 t.2.2) rev) c' p'
        = some cp := by
  intro ts
  induction ts with
  | nil =>
    intro rev _ hex
    rcases hex with ⟨t, ht, _⟩ | hbase
    · exact absurd ht (List.not_mem_nil t)
    · exact hbase
  | cons t rest ih =>
    intro rev h hex
    rw [List.foldl_cons]
    by_cases hmatch : t.1 = c' ∧ t.2.1 = p'
    · obtain ⟨h1, h2⟩ := hmatch
      refine ih _ (fun u hu => h u (List.mem_cons_of_mem t hu)) (Or.inr ?_)
      rw [← h1, ← h2, revLookup2_insert_self]
      exact congrArg some (h t (List.mem_cons_self t rest) h1 h2)
    · refine ih _ (fun u hu => h u (List.mem_cons_of_mem t hu)) ?_
      rcases hex with ⟨u, hu, hmu⟩ | hbase
      · rcases List.mem_cons.mp hu with rfl | humem
        · exact absurd hmu hmatch
        · exact Or.inl ⟨u, humem, hmu⟩
      · refine Or.inr ?_
        rw [revLookup2_insert_ne]
        · exact hbase
        · intro ⟨h1, h2⟩
          exact hmatch ⟨h1.symm, h2.symm⟩

theorem mem_ccTriples {δ' α : Type}
    (cc_sets : List (List ℕ × DiscreteProbabilities (List ℕ) δ' α))
    (t : List ℕ × (List ℕ × α)) :
    t ∈ ccTriples cc_sets ↔
      ∃ pd ∈ cc_sets, ∃ sp ∈ pd.2.probabilities,
        (t = ((elucidate_cc_split pd.1 sp.1).1, (pd.1, sp.2)) ∨
         t = ((elucidate_cc_split pd.1 sp.1).2, (pd.1, sp.2))) := by
  simp only [ccTriples, List.mem_flatMap, List.mem_cons, List.mem_singleton,
    List.not_mem_nil, or_false]

theorem revLookup2_charact {δ' α : Type}
    (cc_sets : List (List ℕ × DiscreteProbabilities (List ℕ) δ' α))
    (huniq : ∀ p₁ ∈ cc_sets, ∀ p₂ ∈ cc_sets, p₁.1 = p₂.1 →
      ∀ sp₁ ∈ p₁.2.probabilities, ∀ sp₂ ∈ p₂.2.probabilities,
      ((elucidate_cc_split p₁.1 sp₁.1).1 = (elucidate_cc_split p₂.1 sp₂.1).1 ∨
       (elucidate_cc_split p₁.1 sp₁.1).1 = (elucidate_cc_split p₂.1 sp₂.1).2 ∨
       (elucidate_cc_split p₁.1 sp₁.1).2 = (elucidate_cc_split p₂.1 sp₂.1).1 ∨
       (elucidate_cc_split p₁.1 sp₁.1).2 = (elucidate_cc_split p₂.1 sp₂.1).2) →
      sp₁.2 = sp₂.2)
    (child parent : List ℕ) (cp : α) :
    revLookup2 (reverse_cc_probabilities cc_sets) child parent = some cp ↔
      ∃ pd ∈ cc_sets, pd.1 = parent ∧ ∃ sp ∈ pd.2.probabilities,
        ((elucidate_cc_split parent sp.1).1 = child ∨
         (elucidate_cc_split parent sp.1).2 = child) ∧ sp.2 = cp := by
  have hvals_eq : ∀ t ∈ ccTriples cc_sets, ∀ u ∈ ccTriples cc_sets,
      t.1 = u.1 → t.2.1 = u.2.1 → t.2.2 = u.2.2 := by
    intro t ht u hu h1 h2
    obtain ⟨pd₁, hpd₁, sp₁, hsp₁, hside₁⟩ := (mem_ccTriples cc_sets t).mp ht
    obtain ⟨pd₂, hpd₂, sp₂, hsp₂, hside₂⟩ := (mem_ccTriples cc_sets u).mp hu
    rcases hside₁ with rfl | rfl <;> rcases hside₂ with rfl | rfl
    · exact huniq pd₁ hpd₁ pd₂ hpd₂ h2 sp₁ hsp₁ sp₂ hsp₂ (Or.inl h1)
    · exact huniq pd₁ hpd₁ pd₂ hpd₂ h2 sp₁ hsp₁ sp₂ hsp₂ (Or.inr (Or.inl h1))
    · exact huniq pd₁ hpd₁ pd₂ hpd₂ h2 sp₁ hsp₁ sp₂ hsp₂ (Or.inr (Or.inr (Or.inl h1)))
    · exact huniq pd₁ hpd₁ pd₂ hpd₂ h2 sp₁ hsp₁ sp₂ hsp₂ (Or.inr (Or.inr (Or.inr h1)))
  constructor
  · intro h
    rw [reverse_cc_eq_triples] at h
    by_cases hex : ∃ t ∈ ccTriples cc_sets, t.1 = child ∧ t.2.1 = parent
    · obtain ⟨t0, ht0, ht01, ht02⟩ := hex
      have hval : revLookup2 ((ccTriples cc_sets).foldl
          (fun r t => reverseCcpInsert r t.1 t.2.1 t.2.2) []) child parent
          = some t0.2.2 :=
        revLookup2_foldl_match child parent t0.2.2 (ccTriples cc_sets) []
          (fun u hu hu1 hu2 =>
            hvals_eq u hu t0 ht0 (by rw [hu1, ht01]) (by rw [hu2, ht02]))
          (Or.inl ⟨t0, ht0, ht01, ht02⟩)
      rw [hval] at h
      have hcp : t0.2.2 = cp := by simpa using h
      obtain ⟨pd, hpd, sp, hsp, hside⟩ := (mem_ccTriples cc_sets t0).mp ht0
      rcases hside with rfl | rfl
      · subst ht02
        exact ⟨pd, hpd, rfl, sp, hsp, Or.inl ht01, hcp⟩
      · subst ht02
        exact ⟨pd, hpd, rfl, sp, hsp, Or.inr ht01, hcp⟩
    · rw [revLookup2_foldl_ne child parent (ccTriples cc_sets) []
        (fun t ht hmt => hex ⟨t, ht, hmt⟩)] at h
      simp [revLookup2, dlookup] at h
  · rintro ⟨pd, hpd, rfl, sp, hsp, hside, hval⟩
    rw [reverse_cc_eq_triples]
    rcases hside with hch | hch
    · have htm : (child, (pd.1, sp.2)) ∈ ccTriples cc_sets :=
        (mem_ccTriples cc_sets _).mpr ⟨pd, hpd, sp, hsp, Or.inl (by rw [hch])⟩
      refine revLookup2_foldl_match child pd.1 cp (ccTriples cc_sets) []
        (fun u hu hu1 hu2 => ?_) (Or.inl ⟨(child, (pd.1, sp.2)), htm, rfl, rfl⟩)
      have := hvals_eq u hu (child, (pd.1, sp.2)) htm (by rw [hu1]) (by rw [hu2])
      exact this.trans hval
    · have htm : (child, (pd.1, sp.2)) ∈ ccTriples cc_sets :=
        (mem_ccTriples cc_sets _).mpr ⟨pd, hpd, sp, hsp, Or.inr (by rw [hch])⟩
      refine revLookup2_foldl_match child pd.1 cp (ccTriples cc_sets) []
        (fun u hu hu1 hu2 => ?_) (Or.inl ⟨(child, (pd.1, sp.2)), htm, rfl, rfl⟩)
      have := hvals_eq u hu (child, (pd.1, sp.2)) htm (by rw [hu1]) (by rw [hu2])
      exact this.trans hval

/-- **C5.** `derive_clade_probabilities` stores probability `1` for the
root clade and, walking the observed clades from largest to smallest
taxon count (so parents are final before their children), assigns every
non-root observed clade the sum over its recorded parents of the
conditional probability times the parent's probability; by the last
conjunct the recorded parents of a clade are exactly the model parents
having the clade as a child of one of their splits, with the conditional
probability of that split.  Hypotheses: clade hashes are distinct, every
hash has a stored size entry and a stored probability entry, stored sizes
are the clade sizes and lie in `[2, n_taxa]`, only the root clade has all
`n_taxa` taxa, every non-root observed clade appears in the reverse map
with parents that are the root or strictly larger observed clades, and no
two distinct splits of the same parent share a child clade. -/
theorem claim_C5_clade_probabilities_dp {δ' α : Type} [LinearOrderedField α]
    (table : DiscreteProbabilities (List ℕ) ℕ α)
    (cc_sets : List (List ℕ × DiscreteProbabilities (List ℕ) δ' α)) (n_taxa : ℕ)
    (hn3 : 3 ≤ n_taxa)
    (hndh : table.hashes_array.Nodup)
    (hlen : table.hashes_array.length ≤ table.data_array.length)
    (hkeys : table.probabilities.map Prod.fst = table.hashes_array)
    (hacc : ∀ hd ∈ table.hashes_array.zip table.data_array,
      2 ≤ hd.2 ∧ hd.2 ≤ n_taxa ∧ clade_size hd.1 = hd.2)
    (hrootid : ∀ hd ∈ table.hashes_array.zip table.data_array,
      hd.2 = n_taxa → hd.1 = calculate_root_hash n_taxa)
    (hpar : ∀ hd ∈ table.hashes_array.zip table.data_array, hd.2 < n_taxa →
      (dlookup hd.1 (reverse_cc_probabilities cc_sets)).isSome = true ∧
      ∀ pr ∈ (dlookup hd.1 (reverse_cc_probabilities cc_sets)).getD [],
        pr.1 = calculate_root_hash n_taxa ∨
        ∃ hd' ∈ table.hashes_array.zip table.data_array,
          hd'.1 = pr.1 ∧ hd.2 < hd'.2)
    (huniq : ∀ p₁ ∈ cc_sets, ∀ p₂ ∈ cc_sets, p₁.1 = p₂.1 →
      ∀ sp₁ ∈ p₁.2.probabilities, ∀ sp₂ ∈ p₂.2.probabilities,
      ((elucidate_cc_split p₁.1 sp₁.1).1 = (elucidate_cc_split p₂.1 sp₂.1).1 ∨
       (elucidate_cc_split p₁.1 sp₁.1).1 = (elucidate_cc_split p₂.1 sp₂.1).2 ∨
       (elucidate_cc_split p₁.1 sp₁.1).2 = (elucidate_cc_split p₂.1 sp₂.1).1 ∨
       (elucidate_cc_split p₁.1 sp₁.1).2 = (elucidate_cc_split p₂.1 sp₂.1).2) →
      sp₁.2 = sp₂.2) :
    ∃ probs',
      derive_clade_probabilities table cc_sets n_taxa = some probs' ∧
      dlookup (calculate_root_hash n_taxa) probs' = some 1 ∧
      (∀ hd ∈ table.hashes_array.zip table.data_array,
        hd.1 ≠ calculate_root_hash n_taxa →
        ∃ parents, dlookup hd.1 (reverse_cc_probabilities cc_sets) = some parents ∧
          dlookup hd.1 probs'
            = some ((parents.map
                (fun pr => pr.2 * (dlookup pr.1 probs').getD 0)).sum)) ∧
      (∀ child parent cp,
        revLookup2 (reverse_cc_probabilities cc_sets) child parent = some cp ↔
        ∃ pd ∈ cc_sets, pd.1 = parent ∧ ∃ sp ∈ pd.2.probabilities,
          ((elucidate_cc_split parent sp.1).1 = child ∨
           (elucidate_cc_split parent sp.1).2 = child) ∧ sp.2 = cp) := by
  have hmapfst : (table.hashes_array.zip table.data_array).map Prod.fst
      = table.hashes_array := List.map_fst_zip _ _ hlen
  have hndz : ((table.hashes_array.zip table.data_array).map Prod.fst).Nodup := by
    rw [hmapfst]
    exact hndh
  have hparents' : ∀ hd ∈ table.hashes_array.zip table.data_array, hd.2 < n_taxa →
      ∃ parents, dlookup hd.1 (reverse_cc_probabilities cc_sets) = some parents ∧
        ∀ pr ∈ parents, pr.1 = calculate_root_hash n_taxa ∨
          ∃ hd' ∈ table.hashes_array.zip table.data_array,
            hd'.1 = pr.1 ∧ hd.2 < hd'.2 := by
    intro hd hdm hlt
    obtain ⟨hs, hprs⟩ := hpar hd hdm hlt
    obtain ⟨parents, hp⟩ := Option.isSome_iff_exists.mp hs
    refine ⟨parents, hp, fun pr hpr => ?_⟩
    apply hprs
    rw [hp]
    simpa using hpr
  have hA0 : ∀ k,
      (dlookup k (dset table.probabilities (calculate_root_hash n_taxa) 1)).isSome ↔
      (k ∈ (table.hashes_array.zip table.data_array).map Prod.fst ∨
        k = calculate_root_hash n_taxa) := by
    intro k
    by_cases hk : k = calculate_root_hash n_taxa
    · subst hk
      rw [dlookup_dset_self]
      exact ⟨fun _ => Or.inr rfl, fun _ => rfl⟩
    · rw [dlookup_dset_ne _ _ _ _ hk, hmapfst]
      constructor
      · intro h
        by_contra hnm
        push_neg at hnm
        rw [dlookup_eq_none_of_not_mem_keys _ _ (by rw [hkeys]; exact hnm.1)] at h
        simp at h
      · rintro (hm | hm)
        · exact dlookup_isSome_of_mem_keys _ _ (by rw [hkeys]; exact hm)
        · exact absurd hm hk
  have hroot0 : dlookup (calculate_root_hash n_taxa)
      (dset table.probabilities (calculate_root_hash n_taxa) 1) = some 1 :=
    dlookup_dset_self _ _ _
  have hC0 : ∀ hd ∈ table.hashes_array.zip table.data_array,
      1 ≤ n_taxa - hd.2 → n_taxa - hd.2 ≤ 0 →
      ∃ parents, dlookup hd.1 (reverse_cc_probabilities cc_sets) = some parents ∧
        dlookup hd.1 (dset table.probabilities (calculate_root_hash n_taxa) 1)
          = some ((parents.map (fun pr => pr.2 *
              (dlookup pr.1 (dset table.probabilities
                (calculate_root_hash n_taxa) 1)).getD 0)).sum) := by
    intro hd hdm h1 h2
    exact absurd (Nat.le_trans h1 h2) (by omega)
  obtain ⟨probs', hrun, hA', hroot', hC'⟩ :=
    deriveAllLoop_inv (reverse_cc_probabilities cc_sets) table n_taxa hndz hacc
      hparents' (n_taxa - 2) 0
      (dset table.probabilities (calculate_root_hash n_taxa) 1)
      (by omega) hA0 hroot0 hC0
  refine ⟨probs', ?_, hroot', ?_, revLookup2_charact cc_sets huniq⟩
  · rw [derive_clade_probabilities]
    exact hrun
  · intro hd hdm hne
    obtain ⟨h2le, hlenn, _⟩ := hacc hd hdm
    have h2n : hd.2 < n_taxa := by
      rcases Nat.lt_or_ge hd.2 n_taxa with h | h
      · exact h
      · exact absurd (hrootid hd hdm (by omega)) hne
    exact hC' hd hdm (by omega) (by omega)

/-- A clade table over 3 taxa for exercising the clade-probability DP:
clades `[192]` (taxa 1,2; size 2) and the root `[224]` (size 3), zero-filled
probabilities as `__init__` leaves them. -/
def exampleCladeTable : DiscreteProbabilities (List ℕ) ℕ ℚ :=
  ⟨[[192], [224]], [2, 3], [([192], 0), ([224], 0)], [0, 0]⟩

/-- A one-parent conditional-clade model matching `exampleCladeTable`:
the root `[224]` splits into `[192]` and `[32]` with probability 1. -/
def exampleRevCcSets : List (List ℕ × DiscreteProbabilities (List ℕ) ℕ ℚ) :=
  [([224], ⟨[[192]], [0], [([192], 1)], [1]⟩)]

theorem claim_C5_clade_probabilities_dp_witness :
    ∃ probs',
      derive_clade_probabilities exampleCladeTable exampleRevCcSets 3 = some probs' ∧
      dlookup (calculate_root_hash 3) probs' = some 1 ∧
      (∀ hd ∈ exampleCladeTable.hashes_array.zip exampleCladeTable.data_array,
        hd.1 ≠ calculate_root_hash 3 →
        ∃ parents,
          dlookup hd.1 (reverse_cc_probabilities exampleRevCcSets) = some parents ∧
          dlookup hd.1 probs'
            = some ((parents.map
                (fun pr => pr.2 * (dlookup pr.1 probs').getD 0)).sum)) ∧
      (∀ child parent cp,
        revLookup2 (reverse_cc_probabilities exampleRevCcSets) child parent
          = some cp ↔
        ∃ pd ∈ exampleRevCcSets, pd.1 = parent ∧ ∃ sp ∈ pd.2.probabilities,
          ((elucidate_cc_split parent sp.1).1 = child ∨
           (elucidate_cc_split parent sp.1).2 = child) ∧ sp.2 = cp) :=
  claim_C5_clade_probabilities_dp exampleCladeTable exampleRevCcSets 3
    (by decide) (by decide) (by decide) (by decide) (by decide) (by decide)
    (by decide) (by decide)

theorem claim_C7_topology_count_dp_witness :
    ∃ n_subtrees,
      allBucketsLoop exampleDpSets false (List.range (3 - 2)) [] = some n_subtrees ∧
      (∀ p, (dlookup p n_subtrees).isSome ↔
        (p ∈ exampleDpSets.map Prod.fst ∧ 3 ≤ clade_size p ∧ clade_size p ≤ 3)) ∧
      (∀ p, (dlookup p n_subtrees).isSome →
        dlookup p n_subtrees = parentSubtrees false n_subtrees p
          (cladeSplits exampleDpSets p)) ∧
      n_derived_topologies exampleDpSets 3 false
        = dlookup (calculate_root_hash 3) n_subtrees ∧
      (n_derived_topologies exampleDpSets 3 false).isSome :=
  claim_C7_topology_count_dp exampleDpSets 3 false (by decide) (by decide)
    (by decide) (by decide) (by decide)

end Scculs
